import Mathlib

/-!
# Verification of the iZprime sieve engine specification

This file embeds the core data structures and algorithms of the iZprime
repository (bit-level `BITMAP` operations, the iZ coordinate algebra and its
horizontal/vertical solvers, the pre-sieved VX base construction, the
`VX_SEG` two-stage sieve, the `SiZ` classic sieve, the `SiZ_count` range
driver and the `iZ_next_prime` walker) as executable Lean definitions, and
proves or refutes the specification claims about them.

Machine integers (`uint64_t`) are modeled as `Nat`, with explicit wrap-around
`% 2^64` at the places where an overflow can actually occur inside the
claimed input domains; `int` values that can be negative are modeled as
`Int`.  C `for`/`while` loops are translated to fuel-indexed structural
recursions; every top-level entry point passes a fuel that is provably
sufficient for the loop bounds of the source.
-/

namespace IZ

/-- Bit-level model of `BITMAP` (bitmap.c).  The C structure stores a packed
byte buffer `data` of `⌈size/8⌉` bytes; bit `i` of the bitmap is bit `i % 8`
of byte `i / 8`.  We model the buffer by its bit view `bits : Nat → Bool`;
each C bit operation touches exactly one bit of the packed buffer, so the
byte-level operations translate pointwise. -/
structure BITMAP where
  size : Nat
  bits : Nat → Bool

/-- `data[idx / 8] &= ~(1 << (idx % 8))` — clears exactly bit `idx`. -/
def clearBit (f : Nat → Bool) (idx : Nat) : Nat → Bool :=
  fun i => if i = idx then false else f i

/-- Fuel-indexed translation of the scalar loop
`for (idx = start_idx; idx <= limit; idx += step) clear bit idx`
of `bitmap_clear_steps` (bitmap.c).  The fuel passed by the wrappers below
is provably larger than the iteration count whenever `step ≥ 1`. -/
def clearLoop : Nat → (Nat → Bool) → Nat → Nat → Nat → (Nat → Bool)
  | 0, f, _, _, _ => f
  | fuel + 1, f, step, idx, limit =>
    if idx ≤ limit then clearLoop fuel (clearBit f idx) step (idx + step) limit
    else f

/-- `bitmap_clear_steps` (bitmap.c, lines 210-219): caps `limit` to
`size - 1`, then clears every `step`-th bit from `start_idx`.  The C source
asserts `step > 0`; the `step = 0` guard mirrors that precondition (the
function is never called with `step = 0`). -/
def bitmap_clear_steps (bm : BITMAP) (step start_idx limit : Nat) : BITMAP :=
  if step = 0 then bm
  else
    { bm with bits := (clearLoop (min limit (bm.size - 1) + 1) bm.bits step start_idx
        (min limit (bm.size - 1))) }

/-- The 4-wide block loop of `bitmap_clear_steps_simd` (bitmap.c): while
`idx <= limit - 3*step`, clear bits `idx, idx+step, idx+2*step, idx+3*step`
and advance by `4*step` (NEON and AVX2 paths; the SSE2 path is the same with
width 2 and the fallback is the scalar loop).  Returns the updated bits and
the final `idx` for the scalar tail. -/
def simdLoop : Nat → (Nat → Bool) → Nat → Nat → Nat → ((Nat → Bool) × Nat)
  | 0, f, _, idx, _ => (f, idx)
  | fuel + 1, f, step, idx, limit =>
    if idx ≤ limit - 3 * step then
      simdLoop fuel
        (clearBit (clearBit (clearBit (clearBit f idx) (idx + step))
          (idx + 2 * step)) (idx + 3 * step))
        step (idx + 4 * step) limit
    else (f, idx)

/-- `bitmap_clear_steps_simd` (bitmap.c, lines 233-364): caps `limit`, runs
the 4-wide block loop when `limit >= 3*step && start_idx <= limit - 3*step`
(the subtraction is on `uint64_t`, guarded by `3*step ≤ limit`, so `Nat`
subtraction agrees), then finishes with the scalar tail loop. -/
def bitmap_clear_steps_simd (bm : BITMAP) (step start_idx limit : Nat) : BITMAP :=
  if step = 0 then bm
  else if 3 * step ≤ min limit (bm.size - 1) ∧
      start_idx ≤ min limit (bm.size - 1) - 3 * step then
    { bm with bits := (clearLoop (min limit (bm.size - 1) + 1)
        (simdLoop (min limit (bm.size - 1) + 1) bm.bits step start_idx
          (min limit (bm.size - 1))).1 step
        (simdLoop (min limit (bm.size - 1) + 1) bm.bits step start_idx
          (min limit (bm.size - 1))).2 (min limit (bm.size - 1))) }
  else
    { bm with bits := (clearLoop (min limit (bm.size - 1) + 1) bm.bits step start_idx
        (min limit (bm.size - 1))) }

/-- Membership in the cleared arithmetic progression of a stepped clear. -/
def inProg (step idx limit i : Nat) : Prop :=
  idx ≤ i ∧ i ≤ limit ∧ step ∣ (i - idx)

instance (step idx limit i : Nat) : Decidable (inProg step idx limit i) := by
  unfold inProg; infer_instance

theorem clearLoop_eq (step : Nat) (hs : 1 ≤ step) :
    ∀ fuel idx limit, limit + 1 ≤ idx + fuel → ∀ (f : Nat → Bool) (i : Nat),
      clearLoop fuel f step idx limit i =
        if inProg step idx limit i then false else f i := by
  intro fuel
  induction fuel with
  | zero =>
    intro idx limit hf f i
    simp only [clearLoop]
    rw [if_neg]
    rintro ⟨h1, h2, -⟩
    omega
  | succ fuel ih =>
    intro idx limit hf f i
    simp only [clearLoop]
    by_cases hidx : idx ≤ limit
    · rw [if_pos hidx, ih (idx + step) limit (by omega) _ i]
      by_cases hi : i = idx
      · subst hi
        rw [if_neg, if_pos ⟨le_refl _, hidx, by simp⟩]
        · simp [clearBit]
        · rintro ⟨h1, -, -⟩; omega
      · have hcb : clearBit f idx i = f i := by simp [clearBit, hi]
        rw [hcb]
        have hiff : inProg step (idx + step) limit i ↔ inProg step idx limit i := by
          constructor
          · rintro ⟨h1, h2, h3⟩
            refine ⟨by omega, h2, ?_⟩
            have hd : step ∣ (i - (idx + step)) + step := Nat.dvd_add h3 (dvd_refl step)
            have he : i - (idx + step) + step = i - idx := by omega
            rwa [he] at hd
          · rintro ⟨h1, h2, h3⟩
            have hpos : 0 < i - idx := by omega
            have hge : step ≤ i - idx := Nat.le_of_dvd hpos h3
            refine ⟨by omega, h2, ?_⟩
            obtain ⟨k, hk⟩ := h3
            cases k with
            | zero => omega
            | succ k =>
              rw [Nat.mul_succ] at hk
              exact ⟨k, by omega⟩
        simp only [hiff]
    · rw [if_neg hidx, if_neg]
      rintro ⟨h1, h2, -⟩
      omega

theorem bitmap_clear_steps_bits (bm : BITMAP) (step s l : Nat) (hs : 1 ≤ step) (i : Nat) :
    (bitmap_clear_steps bm step s l).bits i =
      if inProg step s (min l (bm.size - 1)) i then false else bm.bits i := by
  simp only [bitmap_clear_steps]
  rw [if_neg (by omega)]
  exact clearLoop_eq step hs _ s _ (by omega) bm.bits i

theorem bitmap_clear_steps_size (bm : BITMAP) (step s l : Nat) :
    (bitmap_clear_steps bm step s l).size = bm.size := by
  simp only [bitmap_clear_steps]
  split <;> rfl

theorem simdLoop_tail (step : Nat) (hs : 1 ≤ step) (limit : Nat) (h3 : 3 * step ≤ limit) :
    ∀ fuel (f : Nat → Bool) idx,
      clearLoop (limit + 1) (simdLoop fuel f step idx limit).1 step
          (simdLoop fuel f step idx limit).2 limit =
        clearLoop (limit + 1) f step idx limit := by
  intro fuel
  induction fuel with
  | zero => intro f idx; rfl
  | succ fuel ih =>
    intro f idx
    simp only [simdLoop]
    by_cases hg : idx ≤ limit - 3 * step
    · rw [if_pos hg, ih]
      have hlim : idx + 3 * step ≤ limit := by omega
      funext i
      rw [clearLoop_eq step hs _ _ _ (by omega),
        clearLoop_eq step hs _ _ _ (by omega)]
      by_cases h4 : i = idx ∨ i = idx + step ∨ i = idx + 2 * step ∨ i = idx + 3 * step
      · have hf4 : clearBit (clearBit (clearBit (clearBit f idx) (idx + step))
            (idx + 2 * step)) (idx + 3 * step) i = false := by
          rcases h4 with h | h | h | h <;> subst h <;> simp [clearBit]
        have hrhs : inProg step idx limit i := by
          refine ⟨by omega, by omega, ?_⟩
          rcases h4 with h | h | h | h <;> subst h
          · simp
          · exact ⟨1, by omega⟩
          · exact ⟨2, by omega⟩
          · exact ⟨3, by omega⟩
        rw [if_pos hrhs]
        split
        · rfl
        · exact hf4
      · push_neg at h4
        obtain ⟨hne0, hne1, hne2, hne3⟩ := h4
        have hf4 : clearBit (clearBit (clearBit (clearBit f idx) (idx + step))
            (idx + 2 * step)) (idx + 3 * step) i = f i := by
          simp [clearBit, hne0, hne1, hne2, hne3]
        rw [hf4]
        have hiff : inProg step (idx + 4 * step) limit i ↔ inProg step idx limit i := by
          constructor
          · rintro ⟨h1, h2, h3d⟩
            refine ⟨by omega, h2, ?_⟩
            have hd : step ∣ (i - (idx + 4 * step)) + 4 * step :=
              Nat.dvd_add h3d ⟨4, by ring⟩
            have he : i - (idx + 4 * step) + 4 * step = i - idx := by omega
            rwa [he] at hd
          · rintro ⟨h1, h2, h3d⟩
            obtain ⟨k, hk⟩ := h3d
            match k, hk with
            | 0, hk => omega
            | 1, hk => omega
            | 2, hk => omega
            | 3, hk => omega
            | (k + 4), hk =>
              rw [Nat.mul_add] at hk
              exact ⟨by omega, h2, k, by omega⟩
        simp only [hiff]
    · rw [if_neg hg]

theorem clear_steps_simd_eq (bm : BITMAP) (step s l : Nat) (hs : 1 ≤ step) :
    bitmap_clear_steps_simd bm step s l = bitmap_clear_steps bm step s l := by
  have hstep : ¬ step = 0 := by omega
  simp only [bitmap_clear_steps_simd, bitmap_clear_steps, if_neg hstep]
  by_cases hg : 3 * step ≤ min l (bm.size - 1) ∧ s ≤ min l (bm.size - 1) - 3 * step
  · rw [if_pos hg, simdLoop_tail step hs _ hg.1]
  · rw [if_neg hg]

/-! ## Miller-Rabin rounds plumbing (C7)

`SiZ_stream` (iZ_apps.c line 72) clamps the requested rounds into `[5, 50]`
before handing it to `vx_init`; `SiZ_count` (iZ_apps.c lines 327 and 454)
passes `input_range->mr_rounds` to `vx_init` unchanged.  `vx_init`
(iZ_toolkit.c line 737) replaces `0` by the default `MR_ROUNDS`. -/

/-- `#define MR_ROUNDS 25` (iZ_toolkit.h). -/
def MR_ROUNDS : Int := 25

/-- `vx_obj->mr_rounds = (mr_rounds == 0) ? MR_ROUNDS : mr_rounds;`
(iZ_toolkit.c line 737). -/
def vx_init_mr_rounds (mr_rounds : Int) : Int :=
  if mr_rounds = 0 then MR_ROUNDS else mr_rounds

/-- The `mr_rounds` field of any `VX_SEG` constructed by `SiZ_stream`:
the clamp `MIN(MAX(input_range->mr_rounds, 5), 50)` (iZ_apps.c line 72)
composed with `vx_init`. -/
def SiZ_stream_seg_rounds (mr_rounds : Int) : Int :=
  vx_init_mr_rounds (min (max mr_rounds 5) 50)

/-- The `mr_rounds` field of any `VX_SEG` constructed by `SiZ_count`:
`input_range->mr_rounds` is passed to `vx_init` with no clamp
(iZ_apps.c lines 327, 454). -/
def SiZ_count_seg_rounds (mr_rounds : Int) : Int :=
  vx_init_mr_rounds mr_rounds

/-! ## iZ algebra and the horizontal solver (C3) -/

/-- `2^64`, the modulus of `uint64_t` arithmetic. -/
def U64 : Nat := 2 ^ 64

/-- Wrapping `uint64_t` subtraction `a - b` (operands already reduced). -/
def usub64 (a b : Nat) : Nat := if b ≤ a then a - b else a + U64 - b

/-- `iZ(x, i) = 6x + i` (iZ_toolkit.c line 24 and the GMP variant `iZ_mpz`).
The GMP variant is exact; the `uint64_t` variant agrees with it at every
call site relevant to the claims (all have `6x + i ≥ 0` and below `2^64`). -/
def iZ (x : Nat) (i : Int) : Int := 6 * (x : Int) + i

/-- `iZm_solve_for_x0` (iZ_toolkit.c lines 415-434).  `uint64_t` arithmetic:
`p * xp + m_id * ip * xp` at `y = 0` wraps to `p*xp ± xp` for
`m_id·ip = ±1`; for `y > 0` the subtraction `yvx - xp` and the product
`vx * y` are wrapping, modeled by `usub64` and `% U64`. -/
def iZm_solve_for_x0 (m_id : Int) (p vx y : Nat) : Nat :=
  let xp := (p + 1) / 6
  let ip : Int := if p % 6 = 1 then 1 else -1
  if y = 0 then
    if m_id * ip = 1 then p * xp + xp else p * xp - xp
  else
    let xpn := if m_id = ip then xp else p - xp
    let yvx := (vx * y) % U64
    if p < vx then p - usub64 yvx xpn % p else usub64 yvx xpn % p

/-- The claims' side condition on `vx`: a (squarefree) product of primes
taken from `[5, 29]`. -/
def isSmallPrimeProduct (vx : Nat) : Prop :=
  ∃ s : Finset Nat, (∀ q ∈ s, Nat.Prime q ∧ 5 ≤ q ∧ q ≤ 29) ∧ vx = s.prod id

theorem isSmallPrimeProduct_le {vx : Nat} (h : isSmallPrimeProduct vx) :
    vx ≤ 1078282205 := by
  obtain ⟨s, hs, rfl⟩ := h
  have hsub : s ⊆ ({5, 7, 11, 13, 17, 19, 23, 29} : Finset Nat) := by
    intro q hq
    obtain ⟨hq1, hq2, hq3⟩ := hs q hq
    revert hq1
    interval_cases q <;> decide
  have hdvd : s.prod id ∣ ({5, 7, 11, 13, 17, 19, 23, 29} : Finset Nat).prod id :=
    Finset.prod_dvd_prod_of_subset s _ id hsub
  have hval : ({5, 7, 11, 13, 17, 19, 23, 29} : Finset Nat).prod id = 1078282205 := by
    decide
  rw [hval] at hdvd
  exact Nat.le_of_dvd (by norm_num) hdvd

theorem prime_mod6 {p : Nat} (hp : Nat.Prime p) (h3 : 3 < p) :
    p % 6 = 1 ∨ p % 6 = 5 := by
  have h2 : ¬ (2 ∣ p) := fun h =>
    by rcases (Nat.Prime.eq_one_or_self_of_dvd hp 2 h) with h' | h' <;> omega
  have h3' : ¬ (3 ∣ p) := fun h =>
    by rcases (Nat.Prime.eq_one_or_self_of_dvd hp 3 h) with h' | h' <;> omega
  omega

/-- The normalized residue `normalized_xp` computed by both solvers:
its value is in `[1, p-1]` and satisfies `6·xpn + m_id ∈ {p, 5p}`,
hence `6·xpn ≡ -m_id (mod p)`. -/
theorem normalized_xp_spec {p : Nat} (hp : Nat.Prime p) (h3 : 3 < p)
    {m : Int} (hm : m = -1 ∨ m = 1) :
    ∃ N : Nat,
      (if m = (if p % 6 = 1 then (1 : Int) else -1) then (p + 1) / 6
        else p - (p + 1) / 6) = N ∧
      1 ≤ N ∧ N ≤ p - 1 ∧
      (6 * (N : Int) + m = p ∨ 6 * (N : Int) + m = 5 * p) := by
  have h5 : 5 ≤ p := by
    have := prime_mod6 hp h3
    omega
  have hle6 : (p + 1) / 6 ≤ p := by omega
  rcases prime_mod6 hp h3 with h6 | h6
  · have h6xp : 6 * ((p + 1) / 6) = p - 1 := by omega
    rcases hm with rfl | rfl
    · refine ⟨p - (p + 1) / 6, ?_, by omega, by omega,
        Or.inr (by push_cast [hle6]; omega)⟩
      rw [h6]
      norm_num
    · refine ⟨(p + 1) / 6, ?_, by omega, by omega,
        Or.inl (by push_cast; omega)⟩
      rw [h6]
      norm_num
  · have h6xp : 6 * ((p + 1) / 6) = p + 1 := by omega
    rcases hm with rfl | rfl
    · refine ⟨(p + 1) / 6, ?_, by omega, by omega,
        Or.inl (by push_cast; omega)⟩
      rw [h6]
      norm_num
    · refine ⟨p - (p + 1) / 6, ?_, by omega, by omega,
        Or.inr (by push_cast [hle6]; omega)⟩
      rw [h6]
      norm_num

theorem solve_x0_correct (p vx y : Nat) (m : Int) (hp : Nat.Prime p) (h3 : 3 < p)
    (hvx : isSmallPrimeProduct vx) (hpv : p < vx) (hy1 : 1 ≤ y) (hyb : y ≤ 10 ^ 9)
    (hm : m = -1 ∨ m = 1) :
    1 ≤ iZm_solve_for_x0 m p vx y ∧ iZm_solve_for_x0 m p vx y ≤ p ∧
    iZ (y * vx + iZm_solve_for_x0 m p vx y) m % (p : Int) = 0 ∧
    ∀ x' : Nat, 1 ≤ x' → x' < iZm_solve_for_x0 m p vx y →
      iZ (y * vx + x') m % (p : Int) ≠ 0 := by
  have hp0 : 0 < p := by omega
  have hvxle := isSmallPrimeProduct_le hvx
  obtain ⟨N, hNdef, hN1, hNp, hNdvd⟩ := normalized_xp_spec hp h3 hm
  have hyvx_lt : vx * y < U64 := by
    have h1 : vx * y ≤ 1078282205 * 10 ^ 9 := Nat.mul_le_mul hvxle hyb
    have h2 : (1078282205 * 10 ^ 9 : Nat) < U64 := by norm_num [U64]
    omega
  have hNle : N ≤ vx * y := by
    have : vx ≤ vx * y := Nat.le_mul_of_pos_right vx (by omega)
    omega
  have hxv : iZm_solve_for_x0 m p vx y = p - (vx * y - N) % p := by
    simp only [iZm_solve_for_x0]
    rw [if_neg (by omega), hNdef, Nat.mod_eq_of_lt hyvx_lt, usub64, if_pos hNle,
      if_pos hpv]
  rw [hxv]
  set R := (vx * y - N) % p with hR
  have hRlt : R < p := Nat.mod_lt _ hp0
  obtain ⟨Q, hQ⟩ : ∃ Q, vx * y - N = p * Q + R :=
    ⟨(vx * y - N) / p, by rw [hR]; exact (Nat.div_add_mod _ p).symm⟩
  have hkey : y * vx + (p - R) = N + (p * Q + p) := by
    rw [Nat.mul_comm y vx]
    generalize p * Q = A at hQ
    omega
  have hcong : iZ (y * vx + (p - R)) m % (p : Int) = 0 := by
    rw [iZ]
    rcases hNdvd with h | h
    · have he : (6 : Int) * (y * vx + (p - R) : Nat) + m = (p : Int) * (6 * Q + 7) := by
        rw [hkey]
        push_cast
        linear_combination h
      rw [he, Int.mul_emod_right]
    · have he : (6 : Int) * (y * vx + (p - R) : Nat) + m = (p : Int) * (6 * Q + 11) := by
        rw [hkey]
        push_cast
        linear_combination h
      rw [he, Int.mul_emod_right]
  refine ⟨by omega, by omega, hcong, ?_⟩
  intro x' hx'1 hx'lt hcon
  have hd1 : (p : Int) ∣ iZ (y * vx + (p - R)) m := Int.dvd_of_emod_eq_zero hcong
  have hd2 : (p : Int) ∣ iZ (y * vx + x') m := Int.dvd_of_emod_eq_zero hcon
  have hd6 : (p : Int) ∣ 6 * (((p - R : Nat) : Int) - x') := by
    have hsub := dvd_sub hd1 hd2
    simp only [iZ] at hsub
    convert hsub using 1
    push_cast
    ring
  have hpI : Prime ((p : Nat) : Int) := Nat.prime_iff_prime_int.mp hp
  rcases hpI.dvd_mul.mp hd6 with h6d | hxd
  · have hd6' : p ∣ 6 := Int.ofNat_dvd.mp (by exact_mod_cast h6d)
    have hple : p ≤ 6 := Nat.le_of_dvd (by norm_num) hd6'
    interval_cases p
    · omega
    · omega
    · exact absurd hp (by decide)
  · have hpos : 0 < ((p - R : Nat) : Int) - x' :=
      Int.sub_pos.mpr (by exact_mod_cast hx'lt)
    have hge := Int.le_of_dvd hpos hxd
    have hub : ((p - R : Nat) : Int) ≤ (p : Int) := Int.ofNat_le.mpr (Nat.sub_le p R)
    have h1' : (1 : Int) ≤ (x' : Int) := by exact_mod_cast hx'1
    linarith

/-! ## `gcd`, `modular_inverse` and the vertical solver (C4) -/

/-- Fuel-indexed translation of `gcd` (utils.c lines 419-428):
`while (b != 0) { t = b; b = a % b; a = t; }`. -/
def gcd_loop : Nat → Nat → Nat → Nat
  | 0, a, _ => a
  | fuel + 1, a, b => if b = 0 then a else gcd_loop fuel b (a % b)

/-- `gcd` (utils.c). -/
def c_gcd (a b : Nat) : Nat := gcd_loop (b + 1) a b

theorem gcd_loop_eq : ∀ fuel a b, b < fuel → gcd_loop fuel a b = Nat.gcd a b := by
  intro fuel
  induction fuel with
  | zero => omega
  | succ fuel ih =>
    intro a b hb
    simp only [gcd_loop]
    by_cases h0 : b = 0
    · subst h0
      simp
    · rw [if_neg h0, ih b (a % b) (by have := Nat.mod_lt a (show 0 < b by omega); omega)]
      rw [Nat.gcd_comm b (a % b), ← Nat.gcd_rec b a, Nat.gcd_comm b a]

theorem c_gcd_eq (a b : Nat) : c_gcd a b = Nat.gcd a b :=
  gcd_loop_eq (b + 1) a b (by omega)

/-- Fuel-indexed translation of the `while (a > 1)` loop of `modular_inverse`
(utils.c lines 446-470); `x0`, `x1` are the `int64_t` Bezout coefficients
(exact under the bound `|xi| ≤ m₀ < 2^63` established below).  The `m = 0`
early return guards the division by zero of the source, which is unreachable
for coprime inputs. -/
def modular_inverse_loop : Nat → Nat → Nat → Int → Int → Int
  | 0, _, _, _, x1 => x1
  | fuel + 1, a, m, x0, x1 =>
    if a ≤ 1 then x1
    else if m = 0 then x1
    else modular_inverse_loop fuel m (a % m) (x1 - (a / m : Nat) * x0) x0

/-- `modular_inverse` (utils.c lines 446-470): extended Euclid, one final
conditional `+ m0`, then the `int64 → uint64` cast (in range whenever the
inputs are coprime, see `modular_inverse_spec`). -/
def modular_inverse (a m : Nat) : Nat :=
  if m = 1 then 0
  else (let x1 := modular_inverse_loop (m + 1) a m 0 1
        if x1 < 0 then x1 + m else x1).toNat

theorem modular_inverse_loop_spec (A M : Nat) :
    ∀ fuel a m (x0 x1 : Int), m < fuel → 1 ≤ a → Nat.gcd a m = 1 →
      x1 * A ≡ a [ZMOD M] → x0 * A ≡ m [ZMOD M] →
      a * x0.natAbs + m * x1.natAbs ≤ M → x1.natAbs ≤ M →
      modular_inverse_loop fuel a m x0 x1 * A ≡ 1 [ZMOD M] ∧
        (modular_inverse_loop fuel a m x0 x1).natAbs ≤ M := by
  intro fuel
  induction fuel with
  | zero =>
    intro a m x0 x1 hmf
    exact absurd hmf (Nat.not_lt_zero m)
  | succ fuel ih =>
    intro a m x0 x1 hmf ha hg h1 h2 hJ hx1
    simp only [modular_inverse_loop]
    by_cases ha1 : a ≤ 1
    · rw [if_pos ha1]
      have haa : a = 1 := by omega
      subst haa
      exact ⟨by simpa using h1, hx1⟩
    · rw [if_neg ha1]
      by_cases hm0 : m = 0
      · exfalso
        subst hm0
        simp [Nat.gcd_zero_right] at hg
        omega
      · rw [if_neg hm0]
        have hm1 : 1 ≤ m := by omega
        have hmod : a % m < m := Nat.mod_lt a (by omega)
        have hdm : m * (a / m) + a % m = a := Nat.div_add_mod a m
        refine ih m (a % m) (x1 - (a / m : Nat) * x0) x0 (by omega) hm1 ?_ h2 ?_ ?_ ?_
        · rw [Nat.gcd_comm m (a % m), ← Nat.gcd_rec m a, Nat.gcd_comm m a]
          exact hg
        · -- (x1 - q·x0)·A ≡ a - q·m = a % m
          have hq : ((x1 - (a / m : Nat) * x0) * A : Int) =
              x1 * A - (a / m : Nat) * (x0 * A) := by ring
          have hdmI : (m : Int) * ((a / m : Nat) : Int) + ((a % m : Nat) : Int)
              = (a : Int) := by exact_mod_cast hdm
          have heq : ((a % m : Nat) : Int) = (a : Int) - ((a / m : Nat) : Int) * m := by
            linear_combination hdmI
          rw [hq, heq]
          exact h1.sub (Int.ModEq.mul_left ((a / m : Nat) : Int) h2)
        · -- the bound J is preserved
          have htri : (x1 - (a / m : Nat) * x0).natAbs ≤
              x1.natAbs + (a / m) * x0.natAbs := by
            calc (x1 - (a / m : Nat) * x0).natAbs
                ≤ x1.natAbs + ((a / m : Nat) * x0).natAbs := Int.natAbs_sub_le _ _
              _ = x1.natAbs + (a / m) * x0.natAbs := by
                  rw [Int.natAbs_mul, Int.natAbs_ofNat]
          have hstep : m * (x1 - (a / m : Nat) * x0).natAbs ≤
              m * x1.natAbs + (m * (a / m)) * x0.natAbs := by
            calc m * (x1 - (a / m : Nat) * x0).natAbs
                ≤ m * (x1.natAbs + (a / m) * x0.natAbs) :=
                  Nat.mul_le_mul_left m htri
              _ = m * x1.natAbs + (m * (a / m)) * x0.natAbs := by ring
          have hfin : m * (a / m) * x0.natAbs + (a % m) * x0.natAbs
              = a * x0.natAbs := by
            rw [← Nat.add_mul, hdm]
          omega
        · -- |x0| ≤ M from a·|x0| ≤ M, a ≥ 2
          have : 1 * x0.natAbs ≤ a * x0.natAbs :=
            Nat.mul_le_mul_right _ (by omega)
          omega

theorem modular_inverse_spec (a m : Nat) (hm : 2 ≤ m) (hg : Nat.gcd a m = 1) :
    modular_inverse a m < m ∧ (a * modular_inverse a m) % m = 1 := by
  have ha1 : 1 ≤ a := by
    rcases Nat.eq_zero_or_pos a with h | h
    · subst h
      simp [Nat.gcd_zero_left] at hg
      omega
    · exact h
  have hspec := modular_inverse_loop_spec a m (m + 1) a m 0 1 (by omega) ha1 hg
    (by simp)
    (by
      show (0 : Int) * a ≡ m [ZMOD m]
      simp only [Int.ModEq, zero_mul, Int.zero_emod, Int.emod_self])
    (by simp) (by omega)
  set r := modular_inverse_loop (m + 1) a m 0 1 with hrdef
  obtain ⟨hc, hb⟩ := hspec
  have hne : r.natAbs ≠ m := by
    intro habs
    have hdvd : ((r.natAbs : Nat) : Int) ∣ r := Int.natAbs_dvd.mpr dvd_rfl
    rw [habs] at hdvd
    obtain ⟨k, hk⟩ := hdvd
    have h0 : (r * a) % (m : Int) = 0 := by
      rw [hk, show ((m : Int) * k) * a = (m : Int) * (k * a) by ring,
        Int.mul_emod_right]
    have h1 : (1 : Int) % m = 0 := by
      have := hc
      simp only [Int.ModEq] at this
      omega
    have : (1 : Int) % m = 1 := Int.emod_eq_of_lt (by norm_num) (by exact_mod_cast hm)
    omega
  have hrange : -(m : Int) < r ∧ r < m := by omega
  have hval : modular_inverse a m = (if r < 0 then r + m else r).toNat := by
    simp only [modular_inverse, hrdef]
    rw [if_neg (by omega)]
  set r' : Int := if r < 0 then r + m else r with hr'
  have hr'range : 0 ≤ r' ∧ r' < m := by
    rw [hr']
    split <;> omega
  have hr'c : r' * a ≡ 1 [ZMOD (m : Int)] := by
    have hrr : r' ≡ r [ZMOD (m : Int)] := by
      rw [hr']
      split
      · calc (r + m : Int) ≡ r + 0 [ZMOD (m : Int)] :=
            (Int.ModEq.refl r).add (by simp [Int.ModEq, Int.emod_self])
          _ = r := by ring
      · rfl
    exact (hrr.mul_right (a : Int)).trans hc
  have hvnat : (r'.toNat : Int) = r' := Int.toNat_of_nonneg hr'range.1
  have h1m : (1 : Int) % m = 1 := Int.emod_eq_of_lt (by norm_num) (by exact_mod_cast hm)
  constructor
  · rw [hval]
    omega
  · rw [hval]
    have hInt : (((a * r'.toNat) % m : Nat) : Int) = 1 := by
      push_cast
      rw [hvnat, mul_comm]
      have h := hr'c
      simp only [Int.ModEq] at h
      rw [h]
      exact h1m
    exact_mod_cast hInt

/-- Binary modular exponentiation (not part of the C source; used only to
state kernel-checkable Lucas primality certificates for the concrete primes
appearing in counterexamples). -/
def powModAux : Nat → Nat → Nat → Nat → Nat
  | 0, _, _, n => 1 % n
  | fuel + 1, a, e, n =>
    if e = 0 then 1 % n
    else if e % 2 = 1 then powModAux fuel (a * a % n) (e / 2) n * a % n
    else powModAux fuel (a * a % n) (e / 2) n

def powMod (a e n : Nat) : Nat := powModAux (e + 1) a e n

theorem powModAux_eq : ∀ fuel a e n, e < fuel → powModAux fuel a e n = a ^ e % n := by
  intro fuel
  induction fuel with
  | zero =>
    intro a e n h
    exact absurd h (Nat.not_lt_zero e)
  | succ fuel ih =>
    intro a e n he
    simp only [powModAux]
    by_cases h0 : e = 0
    · subst h0
      simp
    · rw [if_neg h0]
      have hrec : powModAux fuel (a * a % n) (e / 2) n = (a * a % n) ^ (e / 2) % n :=
        ih _ _ _ (by omega)
      have hsq : (a * a % n) ^ (e / 2) % n = (a * a) ^ (e / 2) % n :=
        (Nat.pow_mod (a * a) (e / 2) n).symm
      have hpow : (a * a) ^ (e / 2) = a ^ (2 * (e / 2)) := by
        rw [two_mul, pow_add, ← pow_two, ← pow_mul]
        ring
      by_cases hpar : e % 2 = 1
      · rw [if_pos hpar, hrec, hsq, Nat.mod_mul_mod, hpow, ← pow_succ,
          show 2 * (e / 2) + 1 = e from by omega]
      · rw [if_neg hpar, hrec, hsq, hpow, show 2 * (e / 2) = e from by omega]

theorem powMod_eq (a e n : Nat) : powMod a e n = a ^ e % n :=
  powModAux_eq (e + 1) a e n (Nat.lt_succ_self e)

theorem zmod_pow_eq_powMod (p a e : Nat) :
    ((a : ZMod p)) ^ e = ((powMod a e p : Nat) : ZMod p) := by
  rw [powMod_eq, ZMod.natCast_mod, Nat.cast_pow]

/-- Lucas certificate: `77309411329 = 9·2^33 + 1` is prime, with
`77309411328 = 2^33 · 3^2` and witness `7`. -/
theorem prime_77309411329 : Nat.Prime 77309411329 := by
  have h7 : ((7 : ℕ) : ZMod 77309411329) = (7 : ZMod 77309411329) := by norm_cast
  haveI : Fact (1 < 77309411329) := ⟨by norm_num⟩
  refine lucas_primality 77309411329 (7 : ZMod 77309411329) ?_ ?_
  · rw [show (77309411329 - 1 : ℕ) = 77309411328 from rfl, ← h7,
      zmod_pow_eq_powMod,
      show powMod 7 77309411328 77309411329 = 1 from by decide]
    exact Nat.cast_one
  · intro q hq hdvd
    rw [show (77309411329 - 1 : ℕ) = 2 ^ 33 * 3 ^ 2 from rfl] at hdvd
    have hq23 : q = 2 ∨ q = 3 := by
      rcases (Nat.Prime.dvd_mul hq).mp hdvd with h | h
      · exact Or.inl ((Nat.prime_dvd_prime_iff_eq hq Nat.prime_two).mp
          (hq.dvd_of_dvd_pow h))
      · exact Or.inr ((Nat.prime_dvd_prime_iff_eq hq Nat.prime_three).mp
          (hq.dvd_of_dvd_pow h))
    rcases hq23 with rfl | rfl
    · intro hcon
      rw [show (77309411329 - 1) / 2 = 38654705664 from rfl, ← h7,
        zmod_pow_eq_powMod,
        show powMod 7 38654705664 77309411329 = 77309411328 from by decide] at hcon
      have hval := congrArg ZMod.val hcon
      rw [ZMod.val_cast_of_lt (by norm_num), ZMod.val_one] at hval
      exact absurd hval (by norm_num)
    · intro hcon
      rw [show (77309411329 - 1) / 3 = 25769803776 from rfl, ← h7,
        zmod_pow_eq_powMod,
        show powMod 7 25769803776 77309411329 = 67259910245 from by decide] at hcon
      have hval := congrArg ZMod.val hcon
      rw [ZMod.val_cast_of_lt (by norm_num), ZMod.val_one] at hval
      exact absurd hval (by norm_num)

/-- `iZm_solve_for_y0` (iZ_toolkit.c lines 490-517): the sentinel `-1` when
`gcd(vx, p) ≠ 1`, the immediate solution `y = 0` when `x ≡ xp (mod p)`,
otherwise `y = delta · inverse(vx mod p, p) mod p`, where the `uint64_t`
product `delta * vx_inv` wraps modulo `2^64`. -/
def iZm_solve_for_y0 (m_id : Int) (p vx x : Nat) : Int :=
  if c_gcd vx p ≠ 1 then -1
  else
    let xpn := if m_id = (if p % 6 = 1 then (1 : Int) else -1) then (p + 1) / 6
      else p - (p + 1) / 6
    if x % p = xpn then 0
    else
      let delta := (xpn + p - x % p) % p
      let vx_inv := modular_inverse (vx % p) p
      ((delta * vx_inv % U64 % p : Nat) : Int)

theorem natModEq_to_int {a b n : Nat} (h : a ≡ b [MOD n]) :
    (a : Int) ≡ b [ZMOD (n : Int)] := Int.natCast_modEq_iff.mpr h

theorem solve_y0_sentinel (m : Int) (p vx x : Nat) (hg : Nat.gcd vx p ≠ 1) :
    iZm_solve_for_y0 m p vx x = -1 := by
  simp only [iZm_solve_for_y0, c_gcd_eq]
  rw [if_pos hg]

theorem solve_y0_correct (p vx x : Nat) (m : Int) (hp : Nat.Prime p) (h3 : 3 < p)
    (hpb : p < 2 ^ 32) (hg : Nat.gcd vx p = 1) (hm : m = -1 ∨ m = 1) :
    0 ≤ iZm_solve_for_y0 m p vx x ∧ iZm_solve_for_y0 m p vx x < p ∧
    iZ (x + vx * (iZm_solve_for_y0 m p vx x).toNat) m % (p : Int) = 0 := by
  have hp0 : 0 < p := by omega
  obtain ⟨N, hNdef, hN1, hNp, hNdvd⟩ := normalized_xp_spec hp h3 hm
  have hzero : ∀ t : Nat, t ≡ N [MOD p] → iZ t m % (p : Int) = 0 := by
    intro t ht
    have htI : (t : Int) ≡ N [ZMOD (p : Int)] := natModEq_to_int ht
    have hmod : iZ t m ≡ 6 * (N : Int) + m [ZMOD (p : Int)] := by
      rw [iZ]
      exact (htI.mul_left 6).add_right m
    have h0 : (6 * (N : Int) + m) % p = 0 := by
      rcases hNdvd with h | h
      · rw [h, Int.emod_self]
      · rw [h, show (5 : Int) * (p : Int) = (p : Int) * 5 from by ring,
          Int.mul_emod_right]
    simp only [Int.ModEq] at hmod
    rw [hmod, h0]
  simp only [iZm_solve_for_y0, c_gcd_eq]
  rw [if_neg (by omega), hNdef]
  by_cases hx : x % p = N
  · rw [if_pos hx]
    refine ⟨le_refl 0, by exact_mod_cast hp0, ?_⟩
    simp only [Int.toNat_zero, Nat.mul_zero, Nat.add_zero]
    refine hzero x ?_
    show x % p = N % p
    rw [hx, Nat.mod_eq_of_lt (by omega)]
  · rw [if_neg hx]
    have hgp : Nat.gcd (vx % p) p = 1 := by
      rw [← Nat.gcd_rec p vx, Nat.gcd_comm p vx]
      exact hg
    obtain ⟨hvlt, hvinv⟩ := modular_inverse_spec (vx % p) p (by omega) hgp
    set v := modular_inverse (vx % p) p with hv
    set δ := (N + p - x % p) % p with hδ
    have hδlt : δ < p := Nat.mod_lt _ hp0
    have hprod : δ * v < U64 := by
      have h1 : δ * v < p * p := mul_lt_mul'' hδlt hvlt (zero_le _) (zero_le _)
      have h2 : p * p ≤ 2 ^ 32 * 2 ^ 32 :=
        Nat.mul_le_mul (le_of_lt hpb) (le_of_lt hpb)
      have h3' : (2 : Nat) ^ 32 * 2 ^ 32 = U64 := by norm_num [U64]
      omega
    rw [Nat.mod_eq_of_lt hprod]
    refine ⟨Int.natCast_nonneg _, by exact_mod_cast Nat.mod_lt (δ * v) hp0, ?_⟩
    rw [Int.toNat_natCast]
    have hvv : vx * v ≡ 1 [MOD p] := by
      calc vx * v ≡ vx % p * v [MOD p] := (Nat.mod_modEq vx p).symm.mul_right v
        _ ≡ 1 [MOD p] := by
            show (vx % p * v) % p = 1 % p
            rw [hvinv, Nat.mod_eq_of_lt (by omega)]
    have hyv : vx * (δ * v % p) ≡ δ [MOD p] := by
      calc vx * (δ * v % p) ≡ vx * (δ * v) [MOD p] :=
            (Nat.mod_modEq (δ * v) p).mul_left vx
        _ = vx * v * δ := by ring
        _ ≡ 1 * δ [MOD p] := hvv.mul_right δ
        _ = δ := one_mul δ
    have hδx : δ + x ≡ N [MOD p] := by
      have hxp : x % p < p := Nat.mod_lt _ hp0
      set r := x % p with hr
      obtain ⟨K, hK⟩ : ∃ K, x = p * K + r := ⟨x / p, (Nat.div_add_mod x p).symm⟩
      calc δ + x ≡ (N + p - r) + x [MOD p] :=
            (Nat.mod_modEq (N + p - r) p).add_right x
        _ = N + p * (K + 1) := by
            rw [hK, show p * (K + 1) = p * K + p from by ring]
            generalize p * K = A
            omega
        _ ≡ N [MOD p] := by
            show (N + p * (K + 1)) % p = N % p
            exact Nat.add_mul_mod_self_left N p (K + 1)
    refine hzero (x + vx * (δ * v % p)) ?_
    calc x + vx * (δ * v % p) ≡ x + δ [MOD p] := hyv.add_left x
      _ = δ + x := by ring
      _ ≡ N [MOD p] := hδx

/-! ## VX base construction (C5) -/

/-- `s_primes` (iZ_toolkit.c line 10). -/
def s_primes : List Nat :=
  [2, 3, 5, 7, 11, 13, 17, 19, 23, 29, 31, 37, 41, 43, 47, 53, 59, 61, 67,
    71, 73, 79, 83, 89, 97]

/-- `bitmap_set_all` (bitmap.c line 170). -/
def bitmap_set_all (bm : BITMAP) : BITMAP :=
  { bm with bits := fun _ => true }

/-- `bitmap_clear_bit` (bitmap.c line 159). -/
def bitmap_clear_bit (bm : BITMAP) (idx : Nat) : BITMAP :=
  { bm with bits := clearBit bm.bits idx }

/-- One iteration of the `for (int i = 2; i < s_primes_count; i++)` loop of
`iZm_construct_vx_base` (iZ_toolkit.c lines 373-394): skip `p` unless it
divides `vx`, else clear the bit of `p` itself on its own line and mark the
composites of `p` on both lines. -/
def construct_pass (vx : Nat) (b : BITMAP × BITMAP) (p : Nat) : BITMAP × BITMAP :=
  if vx % p ≠ 0 then b
  else if p % 6 = 1 then
    (bitmap_clear_steps_simd b.1 p (p * ((p + 1) / 6) - (p + 1) / 6) vx,
     bitmap_clear_steps_simd (bitmap_clear_bit b.2 ((p + 1) / 6)) p
       (p * ((p + 1) / 6) + (p + 1) / 6) vx)
  else
    (bitmap_clear_steps_simd (bitmap_clear_bit b.1 ((p + 1) / 6)) p
       (p * ((p + 1) / 6) + (p + 1) / 6) vx,
     bitmap_clear_steps_simd b.2 p (p * ((p + 1) / 6) - (p + 1) / 6) vx)

/-- `iZm_construct_vx_base` (iZ_toolkit.c lines 363-395): set all bits,
clear bit 0 in both bitmaps, then run the small-prime passes. -/
def iZm_construct_vx_base (vx : Nat) (base_x5 base_x7 : BITMAP) : BITMAP × BITMAP :=
  (s_primes.drop 2).foldl (construct_pass vx)
    (bitmap_clear_bit (bitmap_set_all base_x5) 0,
     bitmap_clear_bit (bitmap_set_all base_x7) 0)

/-- The set of `x` indices cleared on the `6x-1` line by the pass of `p`. -/
def clears5 (vx sz p x : Nat) : Prop :=
  vx % p = 0 ∧
    (if p % 6 = 1 then inProg p (p * ((p + 1) / 6) - (p + 1) / 6) (min vx (sz - 1)) x
     else x = (p + 1) / 6 ∨
       inProg p (p * ((p + 1) / 6) + (p + 1) / 6) (min vx (sz - 1)) x)

/-- The set of `x` indices cleared on the `6x+1` line by the pass of `p`. -/
def clears7 (vx sz p x : Nat) : Prop :=
  vx % p = 0 ∧
    (if p % 6 = 1 then x = (p + 1) / 6 ∨
       inProg p (p * ((p + 1) / 6) + (p + 1) / 6) (min vx (sz - 1)) x
     else inProg p (p * ((p + 1) / 6) - (p + 1) / 6) (min vx (sz - 1)) x)

instance (vx sz p x : Nat) : Decidable (clears5 vx sz p x) := by
  unfold clears5; exact instDecidableAnd

instance (vx sz p x : Nat) : Decidable (clears7 vx sz p x) := by
  unfold clears7; exact instDecidableAnd

theorem bitmap_clear_steps_simd_bits (bm : BITMAP) (step s l : Nat) (hs : 1 ≤ step)
    (i : Nat) :
    (bitmap_clear_steps_simd bm step s l).bits i =
      if inProg step s (min l (bm.size - 1)) i then false else bm.bits i := by
  rw [clear_steps_simd_eq bm step s l hs]
  exact bitmap_clear_steps_bits bm step s l hs i

theorem bitmap_clear_steps_simd_size (bm : BITMAP) (step s l : Nat) (hs : 1 ≤ step) :
    (bitmap_clear_steps_simd bm step s l).size = bm.size := by
  rw [clear_steps_simd_eq bm step s l hs]
  exact bitmap_clear_steps_size bm step s l

theorem construct_pass_spec (vx p : Nat) (hp : 2 ≤ p) (b : BITMAP × BITMAP) (x : Nat) :
    (construct_pass vx b p).1.bits x
        = (b.1.bits x && !decide (clears5 vx b.1.size p x)) ∧
    (construct_pass vx b p).2.bits x
        = (b.2.bits x && !decide (clears7 vx b.2.size p x)) ∧
    (construct_pass vx b p).1.size = b.1.size ∧
    (construct_pass vx b p).2.size = b.2.size := by
  by_cases hvp : vx % p = 0
  · have hps : 1 ≤ p := by omega
    by_cases h6 : p % 6 = 1
    · simp only [construct_pass, hvp, ne_eq, not_true_eq_false, if_false,
        if_pos h6, clears5, clears7, if_true]
      refine ⟨?_, ?_, ?_, ?_⟩
      · rw [bitmap_clear_steps_simd_bits _ _ _ _ hps]
        by_cases hin : inProg p (p * ((p + 1) / 6) - (p + 1) / 6) (min vx (b.1.size - 1)) x
        · simp [hin, hvp]
        · simp [hin, hvp]
      · rw [bitmap_clear_steps_simd_bits _ _ _ _ hps]
        simp only [bitmap_clear_bit, clearBit]
        by_cases hin : inProg p (p * ((p + 1) / 6) + (p + 1) / 6)
            (min vx (b.2.size - 1)) x
        · simp [hin, hvp]
        · by_cases hxp : x = (p + 1) / 6
          · simp [hin, hvp, hxp]
          · simp [hin, hvp, hxp]
      · exact bitmap_clear_steps_simd_size _ _ _ _ hps
      · rw [bitmap_clear_steps_simd_size _ _ _ _ hps]
        rfl
    · simp only [construct_pass, hvp, ne_eq, not_true_eq_false, if_false,
        if_neg h6, clears5, clears7]
      refine ⟨?_, ?_, ?_, ?_⟩
      · rw [bitmap_clear_steps_simd_bits _ _ _ _ hps]
        simp only [bitmap_clear_bit, clearBit]
        by_cases hin : inProg p (p * ((p + 1) / 6) + (p + 1) / 6)
            (min vx (b.1.size - 1)) x
        · simp [hin, hvp]
        · by_cases hxp : x = (p + 1) / 6
          · simp [hin, hvp, hxp]
          · simp [hin, hvp, hxp]
      · rw [bitmap_clear_steps_simd_bits _ _ _ _ hps]
        by_cases hin : inProg p (p * ((p + 1) / 6) - (p + 1) / 6)
            (min vx (b.2.size - 1)) x
        · simp [hin, hvp]
        · simp [hin, hvp]
      · rw [bitmap_clear_steps_simd_size _ _ _ _ hps]
        rfl
      · exact bitmap_clear_steps_simd_size _ _ _ _ hps
  · have h1 : construct_pass vx b p = b := by
      simp [construct_pass, hvp]
    rw [h1]
    refine ⟨?_, ?_, rfl, rfl⟩
    · simp [clears5, hvp]
    · simp [clears7, hvp]

theorem foldl_construct_spec (vx : Nat) :
    ∀ (l : List Nat), (∀ p ∈ l, 2 ≤ p) → ∀ (b : BITMAP × BITMAP) (x : Nat),
      (l.foldl (construct_pass vx) b).1.bits x
          = (b.1.bits x && l.all fun p => !decide (clears5 vx b.1.size p x)) ∧
      (l.foldl (construct_pass vx) b).2.bits x
          = (b.2.bits x && l.all fun p => !decide (clears7 vx b.2.size p x)) ∧
      (l.foldl (construct_pass vx) b).1.size = b.1.size ∧
      (l.foldl (construct_pass vx) b).2.size = b.2.size := by
  intro l
  induction l with
  | nil =>
    intro _ b x
    simp
  | cons p t ih =>
    intro hl b x
    obtain ⟨hb1, hb2, hs1, hs2⟩ :=
      construct_pass_spec vx p (hl p (by simp)) b x
    obtain ⟨ht1, ht2, hts1, hts2⟩ :=
      ih (fun q hq => hl q (by simp [hq])) (construct_pass vx b p) x
    simp only [List.foldl_cons, List.all_cons]
    refine ⟨?_, ?_, by rw [hts1, hs1], by rw [hts2, hs2]⟩
    · rw [ht1, hb1, hs1]
      cases b.1.bits x <;> simp [Bool.and_assoc]
    · rw [ht2, hb2, hs2]
      cases b.2.bits x <;> simp [Bool.and_assoc]

/-- The `vx` values the program constructs: products of consecutive primes
starting at 5 (`compute_vx_k`, `VX2` .. `VX8` in iZ_toolkit.h). -/
def validVx (vx : Nat) : Prop :=
  vx ∈ ([35, 385, 5005, 85085, 1616615, 37182145, 1078282205] : List Nat)

theorem prime_dvd_list_prod_mem {q : Nat} (hq : Nat.Prime q) :
    ∀ l : List Nat, (∀ p ∈ l, Nat.Prime p) → q ∣ l.prod → q ∈ l := by
  intro l
  induction l with
  | nil =>
    intro _ hd
    simp only [List.prod_nil, Nat.dvd_one] at hd
    exact absurd hd hq.ne_one
  | cons p t ih =>
    intro hl hd
    rw [List.prod_cons] at hd
    rcases (Nat.Prime.dvd_mul hq).mp hd with h | h
    · have hqp : q = p := (Nat.prime_dvd_prime_iff_eq hq (hl p (by simp))).mp h
      simp [hqp]
    · exact List.mem_cons_of_mem p (ih (fun a ha => hl a (by simp [ha])) h)

theorem closure_of_list (V : Nat) (L : List Nat) (P : Nat)
    (hLp : ∀ p ∈ L, Nat.Prime p) (hprod : L.prod = V)
    (hsub : ∀ a ∈ L, a ∈ s_primes.drop 2) (hle : ∀ a ∈ L, a ≤ P)
    (hall : ∀ r, r ≤ P → Nat.Prime r → 5 ≤ r → r ∣ V) :
    (∀ q : Nat, Nat.Prime q → q ∣ V → q ∈ s_primes.drop 2) ∧
    (∀ q r : Nat, Nat.Prime q → q ∣ V → Nat.Prime r → 5 ≤ r → r ≤ q → r ∣ V) := by
  have hmem : ∀ q, Nat.Prime q → q ∣ V → q ∈ L := fun q hq hd =>
    prime_dvd_list_prod_mem hq L hLp (hprod ▸ hd)
  exact ⟨fun q hq hd => hsub q (hmem q hq hd),
    fun q r hq hd hr hr5 hrq =>
      hall r (le_trans hrq (hle q (hmem q hq hd))) hr hr5⟩

theorem validVx_closure {vx : Nat} (h : validVx vx) :
    (∀ q : Nat, Nat.Prime q → q ∣ vx → q ∈ s_primes.drop 2) ∧
    (∀ q r : Nat, Nat.Prime q → q ∣ vx → Nat.Prime r → 5 ≤ r → r ≤ q → r ∣ vx) := by
  simp only [validVx, List.mem_cons, List.mem_singleton, List.not_mem_nil,
    or_false] at h
  rcases h with rfl | rfl | rfl | rfl | rfl | rfl | rfl
  · exact closure_of_list _ [5, 7] 7 (by decide) (by decide) (by decide)
      (by decide) (by decide)
  · exact closure_of_list _ [5, 7, 11] 11 (by decide) (by decide) (by decide)
      (by decide) (by decide)
  · exact closure_of_list _ [5, 7, 11, 13] 13 (by decide) (by decide) (by decide)
      (by decide) (by decide)
  · exact closure_of_list _ [5, 7, 11, 13, 17] 17 (by decide) (by decide)
      (by decide) (by decide) (by decide)
  · exact closure_of_list _ [5, 7, 11, 13, 17, 19] 19 (by decide) (by decide)
      (by decide) (by decide) (by decide)
  · exact closure_of_list _ [5, 7, 11, 13, 17, 19, 23] 23 (by decide) (by decide)
      (by decide) (by decide) (by decide)
  · exact closure_of_list _ [5, 7, 11, 13, 17, 19, 23, 29] 29 (by decide)
      (by decide) (by decide) (by decide) (by decide)

theorem validVx_ge {vx : Nat} (h : validVx vx) : 35 ≤ vx := by
  simp only [validVx, List.mem_cons, List.mem_singleton, List.not_mem_nil,
    or_false] at h
  rcases h with rfl | rfl | rfl | rfl | rfl | rfl | rfl <;> norm_num

/-! Arithmetic identities for the clearing start positions of a pass. -/

theorem six_start_plus_5 {p : Nat} (h6X : 6 * ((p + 1) / 6) = p + 1) :
    6 * (p * ((p + 1) / 6) + (p + 1) / 6) = p * (p + 2) + 1 := by
  rw [show 6 * (p * ((p + 1) / 6) + (p + 1) / 6)
      = (p + 1) * (6 * ((p + 1) / 6)) from by ring, h6X]
  ring

theorem six_start_minus_5 {p : Nat} (hp : 7 ≤ p) (h6X : 6 * ((p + 1) / 6) = p - 1) :
    6 * (p * ((p + 1) / 6) - (p + 1) / 6) = p * (p - 2) + 1 := by
  have hX1 : 1 ≤ (p + 1) / 6 := by omega
  have hXle : (p + 1) / 6 ≤ p * ((p + 1) / 6) :=
    Nat.le_mul_of_pos_left _ (by omega)
  have h1 : 6 * (p * ((p + 1) / 6) - (p + 1) / 6)
      = 6 * (p * ((p + 1) / 6)) - 6 * ((p + 1) / 6) := by omega
  have h2 : 6 * (p * ((p + 1) / 6)) = p * (p - 1) := by
    rw [show 6 * (p * ((p + 1) / 6)) = p * (6 * ((p + 1) / 6)) from by ring, h6X]
  have h3 : p * (p - 1) = p * (p - 2) + p := by
    rw [show p - 1 = (p - 2) + 1 from by omega]
    ring
  omega

theorem six_start_minus_7 {p : Nat} (hp : 5 ≤ p) (h6X : 6 * ((p + 1) / 6) = p + 1) :
    6 * (p * ((p + 1) / 6) - (p + 1) / 6) = p * p - 1 := by
  have hXle : (p + 1) / 6 ≤ p * ((p + 1) / 6) :=
    Nat.le_mul_of_pos_left _ (by omega)
  have h1 : 6 * (p * ((p + 1) / 6) - (p + 1) / 6)
      = 6 * (p * ((p + 1) / 6)) - 6 * ((p + 1) / 6) := by omega
  have h2 : 6 * (p * ((p + 1) / 6)) = p * (p + 1) := by
    rw [show 6 * (p * ((p + 1) / 6)) = p * (6 * ((p + 1) / 6)) from by ring, h6X]
  have h3 : p * (p + 1) = p * p + p := by ring
  omega

theorem six_start_plus_7 {p : Nat} (hp : 7 ≤ p) (h6X : 6 * ((p + 1) / 6) = p - 1) :
    6 * (p * ((p + 1) / 6) + (p + 1) / 6) = p * p - 1 := by
  have hpp : 1 ≤ p * p := Nat.one_le_iff_ne_zero.mpr (by positivity)
  generalize hX : (p + 1) / 6 = X at h6X ⊢
  have h6XI : (6 : Int) * (X : Int) = (p : Int) - 1 := by omega
  zify [hpp]
  linear_combination ((p : Int) + 1) * h6XI

/-- An element of the cleared progression, as an explicit offset. -/
theorem inProg_elim {step start cap x : Nat} (h : inProg step start cap x) :
    ∃ k, x = start + step * k ∧ x ≤ cap := by
  obtain ⟨h1, h2, k, hk⟩ := h
  exact ⟨k, by omega, h2⟩

theorem clears5_sound {vx sz p x : Nat} (hp : Nat.Prime p) (hp5 : 5 ≤ p)
    (hx1 : 1 ≤ x) (h : clears5 vx sz p x) : Nat.gcd (6 * x - 1) vx ≠ 1 := by
  obtain ⟨hvp, hbr⟩ := h
  have hpvx : p ∣ vx := Nat.dvd_of_mod_eq_zero hvp
  have h6 := prime_mod6 hp (by omega)
  have hdc : p ∣ 6 * x - 1 := by
    by_cases h61 : p % 6 = 1
    · rw [if_pos h61] at hbr
      have h6X : 6 * ((p + 1) / 6) = p - 1 := by omega
      have hstart := six_start_minus_5 (by omega) h6X
      obtain ⟨k, hk, -⟩ := inProg_elim hbr
      refine ⟨(p - 2) + 6 * k, ?_⟩
      have hexp : p * ((p - 2) + 6 * k) = p * (p - 2) + 6 * (p * k) := by ring
      omega
    · rw [if_neg h61] at hbr
      have h65 : p % 6 = 5 := by omega
      have h6X : 6 * ((p + 1) / 6) = p + 1 := by omega
      rcases hbr with hxp | hbr
      · exact ⟨1, by omega⟩
      · have hstart := six_start_plus_5 h6X
        obtain ⟨k, hk, -⟩ := inProg_elim hbr
        refine ⟨(p + 2) + 6 * k, ?_⟩
        have hexp : p * ((p + 2) + 6 * k) = p * (p + 2) + 6 * (p * k) := by ring
        omega
  intro hg1
  have : p ∣ 1 := hg1 ▸ Nat.dvd_gcd hdc hpvx
  have := Nat.le_of_dvd (by norm_num) this
  omega

theorem clears7_sound {vx sz p x : Nat} (hp : Nat.Prime p) (hp5 : 5 ≤ p)
    (h : clears7 vx sz p x) : Nat.gcd (6 * x + 1) vx ≠ 1 := by
  obtain ⟨hvp, hbr⟩ := h
  have hpvx : p ∣ vx := Nat.dvd_of_mod_eq_zero hvp
  have h6 := prime_mod6 hp (by omega)
  have hdc : p ∣ 6 * x + 1 := by
    by_cases h61 : p % 6 = 1
    · rw [if_pos h61] at hbr
      have h6X : 6 * ((p + 1) / 6) = p - 1 := by omega
      rcases hbr with hxp | hbr
      · exact ⟨1, by omega⟩
      · have hstart := six_start_plus_7 (by omega) h6X
        obtain ⟨k, hk, -⟩ := inProg_elim hbr
        refine ⟨p + 6 * k, ?_⟩
        have hexp : p * (p + 6 * k) = p * p + 6 * (p * k) := by ring
        have hppos : 1 ≤ p * p := Nat.one_le_iff_ne_zero.mpr (by positivity)
        omega
    · rw [if_neg h61] at hbr
      have h65 : p % 6 = 5 := by omega
      have h6X : 6 * ((p + 1) / 6) = p + 1 := by omega
      have hstart := six_start_minus_7 (by omega) h6X
      obtain ⟨k, hk, -⟩ := inProg_elim hbr
      refine ⟨p + 6 * k, ?_⟩
      have hexp : p * (p + 6 * k) = p * p + 6 * (p * k) := by ring
      have hppos : 1 ≤ p * p := Nat.one_le_iff_ne_zero.mpr (by positivity)
      omega
  intro hg1
  have : p ∣ 1 := hg1 ▸ Nat.dvd_gcd hdc hpvx
  have := Nat.le_of_dvd (by norm_num) this
  omega

/-- The least prime factor of the cofactor is at least the least prime
factor of the product, so a nontrivial cofactor is at least `minFac c`. -/
theorem cofactor_ge {c r m' : Nat} (hrdef : c.minFac = r) (hm' : c = r * m')
    (hm'2 : 2 ≤ m') : r ≤ m' := by
  have hmf : Nat.Prime m'.minFac := Nat.minFac_prime (by omega)
  have hdm : m'.minFac ∣ c := (Nat.minFac_dvd m').trans ⟨r, by rw [hm']; ring⟩
  have h1 : c.minFac ≤ m'.minFac := Nat.minFac_le_of_dvd hmf.two_le hdm
  have h2 : m'.minFac ≤ m' := Nat.minFac_le (by omega)
  omega

/-- If `gcd c vx ≠ 1` for a `c` coprime to 6, then the least prime factor
of `c` is at least 5, divides `vx`, and is one of the sieving primes. -/
theorem gcd_minFac_facts {c vx : Nat} (hvx : validVx vx) (hc2 : 2 ≤ c)
    (h2 : ¬ 2 ∣ c) (h3 : ¬ 3 ∣ c) (hg : Nat.gcd c vx ≠ 1) :
    ∃ r, c.minFac = r ∧ Nat.Prime r ∧ 5 ≤ r ∧ r ∣ c ∧ r ∣ vx ∧
      r ∈ s_primes.drop 2 ∧ vx % r = 0 := by
  obtain ⟨q, hqdef⟩ : ∃ q, (Nat.gcd c vx).minFac = q := ⟨_, rfl⟩
  have hqprime : Nat.Prime q := hqdef ▸ Nat.minFac_prime hg
  have hqc : q ∣ c := hqdef ▸ (Nat.minFac_dvd _).trans (Nat.gcd_dvd_left c vx)
  have hqvx : q ∣ vx := hqdef ▸ (Nat.minFac_dvd _).trans (Nat.gcd_dvd_right c vx)
  obtain ⟨r, hrdef⟩ : ∃ r, c.minFac = r := ⟨_, rfl⟩
  have hrprime : Nat.Prime r := hrdef ▸ Nat.minFac_prime (by omega)
  have hrc : r ∣ c := hrdef ▸ Nat.minFac_dvd c
  have hrq : r ≤ q := hrdef ▸ Nat.minFac_le_of_dvd hqprime.two_le hqc
  have hr5 : 5 ≤ r := by
    rcases Nat.lt_or_ge r 5 with h | h
    · exfalso
      have h2r := hrprime.two_le
      rcases (by omega : r = 2 ∨ r = 3 ∨ r = 4) with rfl | rfl | rfl
      · exact h2 hrc
      · exact h3 hrc
      · exact absurd hrprime (by decide)
    · exact h
  have hrvx : r ∣ vx := (validVx_closure hvx).2 q r hqprime hqvx hrprime hr5 hrq
  have hrmem : r ∈ s_primes.drop 2 := (validVx_closure hvx).1 r hrprime hrvx
  have hvxr : vx % r = 0 := by
    obtain ⟨t, ht⟩ := hrvx
    rw [ht]; exact Nat.mul_mod_right r t
  exact ⟨r, hrdef, hrprime, hr5, hrc, hrvx, hrmem, hvxr⟩

theorem clears5_complete {vx sz x : Nat} (hvx : validVx vx)
    (hszv : vx ≤ sz - 1) (hx1 : 1 ≤ x) (hxv : x ≤ vx)
    (hg : Nat.gcd (6 * x - 1) vx ≠ 1) :
    ∃ p ∈ s_primes.drop 2, clears5 vx sz p x := by
  have hmin : min vx (sz - 1) = vx := by omega
  obtain ⟨r, hrdef, hrprime, hr5, hrc, hrvx, hrmem, hvxr⟩ :=
    gcd_minFac_facts hvx (show 2 ≤ 6 * x - 1 by omega)
      (by rintro ⟨k, hk⟩; omega) (by rintro ⟨k, hk⟩; omega) hg
  obtain ⟨m', hm'⟩ := hrc
  have hcm6 : (6 * x - 1) % 6 = 5 := by omega
  have h5 := Nat.mul_mod r m' 6
  rw [← hm', hcm6] at h5
  rcases prime_mod6 hrprime (by omega) with hr1 | hr5'
  · have hr7 : 7 ≤ r := by omega
    have h6X : 6 * ((r + 1) / 6) = r - 1 := by omega
    rw [hr1, Nat.one_mul] at h5
    have hm'6 : m' % 6 = 5 := by omega
    have hm'r : r ≤ m' := cofactor_ge hrdef hm' (by omega)
    obtain ⟨s, hs⟩ : ∃ s, m' = (r - 2) + 6 * s := ⟨(m' - (r - 2)) / 6, by omega⟩
    have hexp : r * m' = r * (r - 2) + 6 * (r * s) := by rw [hs]; ring
    have hstart := six_start_minus_5 hr7 h6X
    refine ⟨r, hrmem, hvxr, ?_⟩
    rw [if_pos hr1, hmin]
    exact ⟨by omega, hxv, ⟨s, by omega⟩⟩
  · have h6X : 6 * ((r + 1) / 6) = r + 1 := by omega
    rw [hr5'] at h5
    have hm'6 : m' % 6 = 1 := by omega
    by_cases hm'1 : m' = 1
    · refine ⟨r, hrmem, hvxr, ?_⟩
      rw [if_neg (by omega)]
      left
      rw [hm'1, Nat.mul_one] at hm'
      omega
    · have hm'0 : m' ≠ 0 := by
        intro h0
        rw [h0, Nat.mul_zero] at hm'
        omega
      have hm'r : r ≤ m' := cofactor_ge hrdef hm' (by omega)
      obtain ⟨s, hs⟩ : ∃ s, m' = (r + 2) + 6 * s := ⟨(m' - (r + 2)) / 6, by omega⟩
      have hexp : r * m' = r * (r + 2) + 6 * (r * s) := by rw [hs]; ring
      have hstart := six_start_plus_5 h6X
      refine ⟨r, hrmem, hvxr, ?_⟩
      rw [if_neg (by omega), hmin]
      exact Or.inr ⟨by omega, hxv, ⟨s, by omega⟩⟩

theorem clears7_complete {vx sz x : Nat} (hvx : validVx vx)
    (hszv : vx ≤ sz - 1) (hx1 : 1 ≤ x) (hxv : x ≤ vx)
    (hg : Nat.gcd (6 * x + 1) vx ≠ 1) :
    ∃ p ∈ s_primes.drop 2, clears7 vx sz p x := by
  have hmin : min vx (sz - 1) = vx := by omega
  obtain ⟨r, hrdef, hrprime, hr5, hrc, hrvx, hrmem, hvxr⟩ :=
    gcd_minFac_facts hvx (show 2 ≤ 6 * x + 1 by omega)
      (by rintro ⟨k, hk⟩; omega) (by rintro ⟨k, hk⟩; omega) hg
  obtain ⟨m', hm'⟩ := hrc
  have hcm6 : (6 * x + 1) % 6 = 1 := by omega
  have h5 := Nat.mul_mod r m' 6
  rw [← hm', hcm6] at h5
  rcases prime_mod6 hrprime (by omega) with hr1 | hr5'
  · have hr7 : 7 ≤ r := by omega
    have h6X : 6 * ((r + 1) / 6) = r - 1 := by omega
    rw [hr1, Nat.one_mul] at h5
    have hm'6 : m' % 6 = 1 := by omega
    by_cases hm'1 : m' = 1
    · refine ⟨r, hrmem, hvxr, ?_⟩
      rw [if_pos hr1]
      left
      rw [hm'1, Nat.mul_one] at hm'
      omega
    · have hm'0 : m' ≠ 0 := by
        intro h0
        rw [h0, Nat.mul_zero] at hm'
        omega
      have hm'r : r ≤ m' := cofactor_ge hrdef hm' (by omega)
      obtain ⟨s, hs⟩ : ∃ s, m' = r + 6 * s := ⟨(m' - r) / 6, by omega⟩
      have hexp : r * m' = r * r + 6 * (r * s) := by rw [hs]; ring
      have hstart := six_start_plus_7 hr7 h6X
      refine ⟨r, hrmem, hvxr, ?_⟩
      rw [if_pos hr1, hmin]
      exact Or.inr ⟨by omega, hxv, ⟨s, by omega⟩⟩
  · have h6X : 6 * ((r + 1) / 6) = r + 1 := by omega
    rw [hr5'] at h5
    have hm'6 : m' % 6 = 5 := by omega
    have hm'r : r ≤ m' := cofactor_ge hrdef hm' (by omega)
    obtain ⟨s, hs⟩ : ∃ s, m' = r + 6 * s := ⟨(m' - r) / 6, by omega⟩
    have hexp : r * m' = r * r + 6 * (r * s) := by rw [hs]; ring
    have hstart := six_start_minus_7 (by omega) h6X
    refine ⟨r, hrmem, hvxr, ?_⟩
    rw [if_neg (by omega), hmin]
    exact ⟨by omega, hxv, ⟨s, by omega⟩⟩

/-- The characterization of `iZm_construct_vx_base`: on indices
`1 ≤ x ≤ vx` (with bitmaps large enough to hold them), a bit survives on
the `6x-1` line iff `gcd(6x-1, vx) = 1`, and on the `6x+1` line iff
`gcd(6x+1, vx) = 1`. -/
theorem construct_vx_base_char {vx : Nat} (hvx : validVx vx)
    (b5 b7 : BITMAP) (h5sz : vx + 1 ≤ b5.size) (h7sz : vx + 1 ≤ b7.size)
    (x : Nat) (hx1 : 1 ≤ x) (hxv : x ≤ vx) :
    ((iZm_construct_vx_base vx b5 b7).1.bits x = true ↔
      Nat.gcd (6 * x - 1) vx = 1) ∧
    ((iZm_construct_vx_base vx b5 b7).2.bits x = true ↔
      Nat.gcd (6 * x + 1) vx = 1) := by
  have hprimes : ∀ p ∈ s_primes.drop 2, Nat.Prime p ∧ 5 ≤ p := by decide
  obtain ⟨h1, h2, -, -⟩ :=
    foldl_construct_spec vx (s_primes.drop 2) (by decide)
      (bitmap_clear_bit (bitmap_set_all b5) 0,
       bitmap_clear_bit (bitmap_set_all b7) 0) x
  have hb5 : (bitmap_clear_bit (bitmap_set_all b5) 0).bits x = true := by
    simp [bitmap_clear_bit, bitmap_set_all, clearBit]
    omega
  have hb7 : (bitmap_clear_bit (bitmap_set_all b7) 0).bits x = true := by
    simp [bitmap_clear_bit, bitmap_set_all, clearBit]
    omega
  constructor
  · rw [iZm_construct_vx_base, h1, hb5, Bool.true_and, List.all_eq_true]
    constructor
    · intro hall
      by_contra hgcd
      obtain ⟨p, hpmem, hp⟩ := clears5_complete hvx
        (show vx ≤ (bitmap_clear_bit (bitmap_set_all b5) 0).size - 1 by
          simp only [bitmap_clear_bit, bitmap_set_all]
          omega) hx1 hxv hgcd
      have := hall p hpmem
      rw [Bool.not_eq_true', decide_eq_false_iff_not] at this
      exact this hp
    · intro hgcd p hpmem
      rw [Bool.not_eq_true', decide_eq_false_iff_not]
      intro hcl
      exact clears5_sound (hprimes p hpmem).1 (hprimes p hpmem).2 hx1 hcl hgcd
  · rw [iZm_construct_vx_base, h2, hb7, Bool.true_and, List.all_eq_true]
    constructor
    · intro hall
      by_contra hgcd
      obtain ⟨p, hpmem, hp⟩ := clears7_complete hvx
        (show vx ≤ (bitmap_clear_bit (bitmap_set_all b7) 0).size - 1 by
          simp only [bitmap_clear_bit, bitmap_set_all]
          omega) hx1 hxv hgcd
      have := hall p hpmem
      rw [Bool.not_eq_true', decide_eq_false_iff_not] at this
      exact this hp
    · intro hgcd p hpmem
      rw [Bool.not_eq_true', decide_eq_false_iff_not]
      intro hcl
      exact clears7_sound (hprimes p hpmem).1 (hprimes p hpmem).2 hcl hgcd

/-! ### `SiZ` (prime_sieve.c) and `process_iZ_bitmaps` (iZ_toolkit.c) -/

/-- One `x` iteration of the loop of `process_iZ_bitmaps` (iZ_toolkit.c
lines 73-102): emit `6x-1` if its bit survives in `x5`, clearing the
composite progressions when it is a root prime, then the same for `6x+1`
in `x7` with the `±x` offsets swapped. -/
def process_step (x_limit root_limit : Nat)
    (st : List Nat × BITMAP × BITMAP) (x : Nat) : List Nat × BITMAP × BITMAP :=
  let st1 :=
    if st.2.1.bits x then
      let p := 6 * x - 1
      if p < root_limit then
        (st.1 ++ [p],
         bitmap_clear_steps_simd st.2.1 p (p * x + x) x_limit,
         bitmap_clear_steps_simd st.2.2 p (p * x - x) x_limit)
      else (st.1 ++ [p], st.2.1, st.2.2)
    else st
  if st1.2.2.bits x then
    let p := 6 * x + 1
    if p < root_limit then
      (st1.1 ++ [p],
       bitmap_clear_steps_simd st1.2.1 p (p * x - x) x_limit,
       bitmap_clear_steps_simd st1.2.2 p (p * x + x) x_limit)
    else (st1.1 ++ [p], st1.2.1, st1.2.2)
  else st1

/-- Integer square root by bounded search: the largest `s ≤ start + fuel`
with `s * s ≤ m`, starting from a `start` with `start * start ≤ m`. -/
def isqrtLoop : Nat → Nat → Nat → Nat
  | 0, s, _ => s
  | fuel + 1, s, m => if (s + 1) * (s + 1) ≤ m then isqrtLoop fuel (s + 1) m else s

/-- Floor integer square root (kernel-computable). -/
def isqrt (m : Nat) : Nat := isqrtLoop m 0 m

theorem isqrtLoop_spec : ∀ fuel s m, s * s ≤ m →
    m < (s + fuel + 1) * (s + fuel + 1) →
    isqrtLoop fuel s m * isqrtLoop fuel s m ≤ m ∧
      m < (isqrtLoop fuel s m + 1) * (isqrtLoop fuel s m + 1) := by
  intro fuel
  induction fuel with
  | zero =>
    intro s m hs hm
    simpa [isqrtLoop] using ⟨hs, hm⟩
  | succ fuel ih =>
    intro s m hs hm
    simp only [isqrtLoop]
    by_cases h : (s + 1) * (s + 1) ≤ m
    · rw [if_pos h]
      exact ih (s + 1) m h
        (by rw [show s + 1 + fuel + 1 = s + (fuel + 1) + 1 from by omega]; exact hm)
    · rw [if_neg h]
      exact ⟨hs, by omega⟩

/-- `isqrt` computes the floor square root. -/
theorem isqrt_spec (m : Nat) :
    isqrt m * isqrt m ≤ m ∧ m < (isqrt m + 1) * (isqrt m + 1) :=
  isqrtLoop_spec m 0 m (by omega) (by nlinarith)

/-- `process_iZ_bitmaps` (iZ_toolkit.c lines 69-103): iterate `x` over
`1 ≤ x < x_limit` with `root_limit = sqrt(6 * x_limit) + 1` (the `double`
square root is exact on this range, hence the floor square root). -/
def process_iZ_bitmaps (primes : List Nat) (x5 x7 : BITMAP) (x_limit : Nat) :
    List Nat × BITMAP × BITMAP :=
  (List.range' 1 (x_limit - 1)).foldl
    (process_step x_limit (isqrt (6 * x_limit) + 1)) (primes, x5, x7)

/-- `SiZ` (prime_sieve.c lines 444-485): push 2 and 3, sieve the two
all-ones bitmaps of size `x_n + 1 = n/6 + 2` through `process_iZ_bitmaps`
with `x_limit = x_n = n/6 + 1`, and pop the last prime if it exceeds `n`. -/
def SiZ (n : Nat) : List Nat :=
  let x_n := n / 6 + 1
  let res := process_iZ_bitmaps [2, 3] ⟨x_n + 1, fun _ => true⟩
    ⟨x_n + 1, fun _ => true⟩ x_n
  if res.1.getLastD 0 > n then res.1.dropLast else res.1

/-- `SiZm` (prime_sieve.c lines 516-612), parametrized by the `vx` that
`compute_l2_vx` picks from the host's L2 cache size.  For `n < 10000` the
code returns `SiZ(n)` directly (line 522); otherwise it sieves segment by
segment from the pre-sieved base bitmaps, marking root-prime composites
with `iZm_solve_for_x0` (the `y` fits `uint64_t` for every legal `n`). -/
def SiZm (vx n : Nat) : List Nat :=
  if n < 10000 then SiZ n
  else
    let base := iZm_construct_vx_base vx ⟨vx + 8, fun _ => true⟩
      ⟨vx + 8, fun _ => true⟩
    let base_primes : List Nat := [2, 3, 5, 7, 11, 13, 17, 19, 23, 29, 31, 37]
    let pres := base_primes.takeWhile (fun p => (6 * vx) % p = 0)
    let k := pres.length
    let x_n := n / 6 + 1
    let res := process_iZ_bitmaps pres base.1 base.2 (vx + 1)
    let y_limit := x_n / vx
    let step := fun (st : List Nat × Nat) (y : Nat) =>
      let x_limit := if y < y_limit then vx else x_n % vx
      let root_limit := isqrt (6 * (st.2 + x_limit)) + 1
      let roots := (st.1.drop k).takeWhile (fun p => p ≤ root_limit)
      let bs := roots.foldl (fun (b : BITMAP × BITMAP) p =>
        (bitmap_clear_steps_simd b.1 p (iZm_solve_for_x0 (-1) p vx y) x_limit,
         bitmap_clear_steps_simd b.2 p (iZm_solve_for_x0 1 p vx y) x_limit))
        (base.1, base.2)
      let primes := (List.range' 2 (x_limit - 1)).foldl (fun l x =>
        let l := if bs.1.bits x then l ++ [(iZ (st.2 + x) (-1)).toNat] else l
        if bs.2.bits x then l ++ [(iZ (st.2 + x) 1).toNat] else l) st.1
      (primes, st.2 + vx)
    let primes := ((List.range' 1 y_limit).foldl step (res.1, vx)).1
    if primes.getLastD 0 > n then primes.dropLast else primes

/-! ### The `IZM` context and `VX_SEG` segments (iZ_toolkit.c) -/

/-- The `IZM` toolkit context (iZ_toolkit.h): wheel size, root primes,
the count of pre-sieved primes dividing `vx`, and the base bitmaps. -/
structure IZM where
  vx : Nat
  root_primes : List Nat
  k_vx : Nat
  base_x5 : BITMAP
  base_x7 : BITMAP

/-- `compute_k_vx` (iZ_toolkit.c lines 52-59): how many consecutive
primes from 5 on divide `vx`. -/
def compute_k_vx (vx : Nat) : Nat :=
  ((s_primes.drop 2).takeWhile (fun p => vx % p = 0)).length

/-- `iZm_init` (iZ_toolkit.c lines 184-224): root primes by `SiZ(vx)`,
`k_vx`, and base bitmaps of size `vx + 10` shaped by
`iZm_construct_vx_base`. -/
def iZm_init (vx : Nat) : IZM :=
  { vx := vx
    root_primes := SiZ vx
    k_vx := compute_k_vx vx
    base_x5 := (iZm_construct_vx_base vx ⟨vx + 10, fun _ => true⟩
      ⟨vx + 10, fun _ => true⟩).1
    base_x7 := (iZm_construct_vx_base vx ⟨vx + 10, fun _ => true⟩
      ⟨vx + 10, fun _ => true⟩).2 }

/-- The `VX_SEG` segment state (iZ_toolkit.h): the fields read or written
by `vx_init`, `vx_det_sieve`, `vx_prob_sieve` and `vx_full_sieve`
(`p_gaps`, `bit_ops` and the output-only statistics are omitted). -/
structure VX_SEG where
  vx : Nat
  y : Nat
  yvx : Nat
  root_limit : Nat
  is_large_limit : Bool
  mr_rounds : Int
  start_x : Nat
  end_x : Nat
  x5 : BITMAP
  x7 : BITMAP
  p_count : Nat
  p_test_ops : Nat

/-- `vx_det_sieve` (iZ_toolkit.c lines 566-627), `y < 2^64` branch: mark
composites of the root primes after the `2 + k_vx` pre-sieved ones,
stopping at the first prime past `root_limit`, then count surviving bits
when no probabilistic phase will follow. -/
def vx_det_sieve (iZm : IZM) (st : VX_SEG) : VX_SEG :=
  let roots := (iZm.root_primes.drop (2 + iZm.k_vx)).takeWhile
    (fun p => p ≤ st.root_limit)
  let st1 := roots.foldl (fun s p =>
    { s with
      x5 := bitmap_clear_steps_simd s.x5 p (iZm_solve_for_x0 (-1) p s.vx s.y)
        s.end_x
      x7 := bitmap_clear_steps_simd s.x7 p (iZm_solve_for_x0 1 p s.vx s.y)
        s.end_x }) st
  if !st1.is_large_limit then
    { st1 with p_count := ((List.range' st1.start_x
        (st1.end_x + 1 - st1.start_x)).foldl
          (fun c x => c + (if st1.x5.bits x then 1 else 0) +
            (if st1.x7.bits x then 1 else 0)) 0) }
  else st1

/-- `vx_init` (iZ_toolkit.c lines 713-752) with `vx_set_base_values`
(lines 529-559): `yvx = y * vx`, `root_limit = ⌊√(6(yvx + vx) + 1)⌋`
(GMP `mpz_sqrt` is the exact floor square root), `is_large_limit` iff
`root_limit > vx`, the `mr_rounds = 0 → 25` default, clamped `start_x`
and `end_x`, bitmaps cloned from the base, then `vx_det_sieve`. -/
def vx_init (iZm : IZM) (start_x end_x : Nat) (y : Nat) (mr_rounds : Int) :
    VX_SEG :=
  let yvx := y * iZm.vx
  let root_limit := isqrt ((iZ (yvx + iZm.vx) 1).toNat)
  vx_det_sieve iZm
    { vx := iZm.vx
      y := y
      yvx := yvx
      root_limit := root_limit
      is_large_limit := decide (iZm.vx < root_limit)
      mr_rounds := vx_init_mr_rounds mr_rounds
      start_x := max start_x 1
      end_x := min end_x iZm.vx
      x5 := iZm.base_x5
      x7 := iZm.base_x7
      p_count := 0
      p_test_ops := 0 }

/-- One `x` iteration of `vx_prob_sieve` (iZ_toolkit.c lines 650-688):
test each surviving candidate with `check_primality` (the `oracle`),
counting primes and clearing composites. -/
def vx_prob_step (oracle : Int → Bool) (st : VX_SEG) (x : Nat) : VX_SEG :=
  let st1 :=
    if st.x5.bits x then
      if oracle (iZ (st.yvx + x) (-1)) then
        { st with p_count := st.p_count + 1, p_test_ops := st.p_test_ops + 1 }
      else
        { st with x5 := bitmap_clear_bit st.x5 x,
                  p_test_ops := st.p_test_ops + 1 }
    else st
  if st1.x7.bits x then
    if oracle (iZ (st1.yvx + x) 1) then
      { st1 with p_count := st1.p_count + 1, p_test_ops := st1.p_test_ops + 1 }
    else
      { st1 with x7 := bitmap_clear_bit st1.x7 x,
                 p_test_ops := st1.p_test_ops + 1 }
  else st1

/-- `vx_prob_sieve` (iZ_toolkit.c lines 633-696): skip when
`is_large_limit` is already clear; otherwise test candidates for
`max(start_x, 1) ≤ x ≤ end_x` and clear the flag. -/
def vx_prob_sieve (oracle : Int → Bool) (st : VX_SEG) : VX_SEG :=
  if !st.is_large_limit then st
  else
    let s := if st.start_x ≤ 1 then 1 else st.start_x
    let st1 := (List.range' s (st.end_x + 1 - s)).foldl (vx_prob_step oracle) st
    { st1 with is_large_limit := false }

/-- `vx_full_sieve` (iZ_toolkit.c lines 847-858) with
`collect_p_gaps = 0`: run the probabilistic phase when `is_large_limit`
is set; the `p_gaps` collection branch is only taken with a non-zero
`collect_p_gaps` and is outside this model. -/
def vx_full_sieve (oracle : Int → Bool) (st : VX_SEG) : VX_SEG :=
  if st.is_large_limit then vx_prob_sieve oracle st else st

/-- `SiZ_count` (iZ_apps.c lines 200-343), single-worker path
(`cores_num = 1`), parametrized by the `compute_l2_vx` result `vx` and the
`check_primality` oracle.  Mirrors `range_info_init` (inclusive end
`Ze = Zs + range - 1`), the solid first segment via `SiZm` when `Ys = 0`
with out-of-range exclusions, the early return when `current_y > Ye`, the
two boundary corrections, and the per-segment `vx_init` /
`vx_full_sieve(·, 0)` accumulation of `p_count`. -/
def SiZ_count (oracle : Int → Bool) (vx Zs range : Nat) (mr_rounds : Int) :
    Nat :=
  let Ze := if range = 0 then Zs else Zs + range - 1
  let Xs := Zs / 6
  let Xe := Ze / 6
  let Ys := Xs / vx
  let Ye := Xe / vx
  let end_x := Xe % vx
  let total0 :=
    if Ys = 0 then
      let limit := if 0 < Ye then vx else end_x
      let primes := SiZm vx (limit * 6 + 1)
      primes.foldl (fun t p => if p < Zs ∨ Ze < p then t - 1 else t)
        primes.length
    else 0
  let start_x := if Ys = 0 then 1 else Xs % vx
  let cy := if Ys = 0 then 1 else Ys
  if Ye < cy then total0
  else
    let iZm := iZm_init vx
    let total1 :=
      if 0 < cy ∧ Zs % 6 ≤ 1 ∧ iZ Xs (-1) < (Zs : Int) ∧ oracle (iZ Xs (-1))
      then total0 - 1 else total0
    let total2 :=
      if 0 < Ye ∧ Ze % 6 ≤ 1 ∧ (Ze : Int) < iZ Xe 1 ∧ oracle (iZ Xe 1)
      then total1 - 1 else total1
    (List.range' cy (Ye + 1 - cy)).foldl (fun t y =>
      t + (vx_full_sieve oracle (vx_init iZm
        (if y = cy then start_x else 1)
        (if y = Ye then end_x else vx) y mr_rounds)).p_count) total2

/-! ### `iZ_next_prime` (iZ_apps.c lines 863-1009) -/

/-- The body of one `x` probe of the `iZ_next_prime` scan: forward checks
the `6x-1` candidate then the `6x+1` candidate, backward the reverse
(iZ_apps.c lines 929-955 and 965-991). -/
def scan_x (oracle : Int → Bool) (b5 b7 : BITMAP) (forward : Bool)
    (yvx : Int) (x : Nat) : Option Int :=
  if forward then
    if b5.bits x ∧ oracle (6 * (yvx + x) - 1) then some (6 * (yvx + x) - 1)
    else if b7.bits x ∧ oracle (6 * (yvx + x) + 1) then some (6 * (yvx + x) + 1)
    else none
  else
    if b7.bits x ∧ oracle (6 * (yvx + x) + 1) then some (6 * (yvx + x) + 1)
    else if b5.bits x ∧ oracle (6 * (yvx + x) - 1) then some (6 * (yvx + x) - 1)
    else none

/-- The `while (!found)` segment loop of `iZ_next_prime`, fuel-indexed:
scan a segment (forward `start_x ≤ x ≤ vx`, backward `start_x ≥ x ≥ 1`),
then move `yvx` one segment over and restart from the segment edge. -/
def next_prime_loop (oracle : Int → Bool) (iZm : IZM) (forward : Bool) :
    Nat → Int → Nat → Option Int
  | 0, _, _ => none
  | fuel + 1, yvx, start_x =>
    if forward then
      match (List.range' start_x (iZm.vx + 1 - start_x)).findSome?
          (scan_x oracle iZm.base_x5 iZm.base_x7 forward yvx) with
      | some p => some p
      | none => next_prime_loop oracle iZm forward fuel (yvx + iZm.vx) 1
    else
      match ((List.range' 1 start_x).reverse).findSome?
          (scan_x oracle iZm.base_x5 iZm.base_x7 forward yvx) with
      | some p => some p
      | none => next_prime_loop oracle iZm forward fuel (yvx - iZm.vx) iZm.vx

/-- `iZ_next_prime` (iZ_apps.c lines 863-1009), for bases below `2^2048`
(so `vx = VX5 = 85085`), with `check_primality` as the `oracle` and the
unbounded `while` loop fuel-indexed.  The edge probes at `base ± 2`, the
segment origin `yvx = (base / (6·vx))·vx`, and the scan start
`start_x = (z/6) % vx ± 1` mirror the source (backward `start_x - 1`
saturates at 0 exactly where the C `int` turns `-1`: both skip the first
segment scan). -/
def iZ_next_prime (oracle : Int → Bool) (base : Nat) (forward : Bool)
    (fuel : Nat) : Option Int :=
  if forward ∧ base % 6 = 5 ∧ oracle ((base : Int) + 2) then
    some ((base : Int) + 2)
  else if (!forward) ∧ base % 6 = 1 ∧ oracle ((base : Int) - 2) then
    some ((base : Int) - 2)
  else
    let z : Nat := if forward ∧ base % 6 = 5 then base + 2
      else if (!forward) ∧ base % 6 = 1 then base - 2 else base
    let vx : Nat := 85085
    let iZm := iZm_init vx
    let y := base / (6 * vx)
    let yvx := y * vx
    let x_p := z / 6
    let start_x := if forward then x_p % vx + 1 else x_p % vx - 1
    next_prime_loop oracle iZm forward fuel (yvx : Int) start_x

/-- A successful scan probe returns an oracle-approved `6x ± 1` value for
an `x` of the scanned list. -/
theorem findSome_scan {oracle : Int → Bool} {b5 b7 : BITMAP} {fwd : Bool}
    {yvx : Int} : ∀ (xs : List Nat) (c : Int),
    xs.findSome? (scan_x oracle b5 b7 fwd yvx) = some c →
    oracle c = true ∧
      ∃ x ∈ xs, c = 6 * (yvx + x) - 1 ∨ c = 6 * (yvx + x) + 1 := by
  intro xs
  induction xs with
  | nil => intro c hc; simp [List.findSome?] at hc
  | cons x t ih =>
    intro c hc
    rw [List.findSome?_cons] at hc
    rcases hsc : scan_x oracle b5 b7 fwd yvx x with - | c'
    · rw [hsc] at hc
      simp only at hc
      obtain ⟨ho, x', hx', hform⟩ := ih c hc
      exact ⟨ho, x', by simp [hx'], hform⟩
    · rw [hsc] at hc
      simp only [Option.some.injEq] at hc
      subst hc
      unfold scan_x at hsc
      split_ifs at hsc with h1 h2 h3 h4 h5
      all_goals simp only [Option.some.injEq] at hsc
      all_goals subst hsc
      all_goals
        exact ⟨by first | exact h2.2 | exact h3.2 | exact h4.2 | exact h5.2,
          x, by simp, by omega⟩

theorem next_prime_loop_sound {oracle : Int → Bool} {iZm : IZM}
    (fwd : Bool) (base : Int) :
    ∀ (fuel : Nat) (yvx : Int) (sx : Nat), sx ≤ iZm.vx + 1 →
      (fwd = true → base < 6 * (yvx + sx) - 1) →
      (fwd = false → 6 * (yvx + sx) + 1 < base) →
      ∀ c : Int, next_prime_loop oracle iZm fwd fuel yvx sx = some c →
        oracle c = true ∧ (fwd = true → base < c) ∧ (fwd = false → c < base) := by
  intro fuel
  induction fuel with
  | zero =>
    intro yvx sx _ _ _ c hc
    simp [next_prime_loop] at hc
  | succ fuel ih =>
    intro yvx sx hsx hf hb c hc
    rw [next_prime_loop] at hc
    cases fwd with
    | true =>
      have hf' := hf rfl
      rw [if_pos rfl] at hc
      rcases hscan : (List.range' sx (iZm.vx + 1 - sx)).findSome?
          (scan_x oracle iZm.base_x5 iZm.base_x7 true yvx) with - | p
      · rw [hscan] at hc
        exact ih _ _ (by omega) (fun _ => by omega) (fun h => nomatch h) c hc
      · rw [hscan] at hc
        simp only [Option.some.injEq] at hc
        subst hc
        obtain ⟨ho, x, hx, hform⟩ := findSome_scan _ _ hscan
        rw [List.mem_range'_1] at hx
        refine ⟨ho, ?_, ?_⟩
        · intro _
          rcases hform with rfl | rfl <;> omega
        · exact fun h => nomatch h
    | false =>
      have hb' := hb rfl
      rw [if_neg (by simp)] at hc
      rcases hscan : ((List.range' 1 sx).reverse).findSome?
          (scan_x oracle iZm.base_x5 iZm.base_x7 false yvx) with - | p
      · rw [hscan] at hc
        exact ih _ _ (by omega) (fun h => nomatch h) (fun _ => by omega) c hc
      · rw [hscan] at hc
        simp only [Option.some.injEq] at hc
        subst hc
        obtain ⟨ho, x, hx, hform⟩ := findSome_scan _ _ hscan
        rw [List.mem_reverse, List.mem_range'_1] at hx
        refine ⟨ho, ?_, ?_⟩
        · exact fun h => nomatch h
        · intro _
          rcases hform with rfl | rfl <;> omega

/-- Soundness of `iZ_next_prime` away from the broken boundary residues:
whatever it returns is oracle-approved and lies strictly beyond the base
in the requested direction. -/
theorem next_prime_sound (oracle : Int → Bool) (base : Nat) (forward : Bool)
    (fuel : Nat) (c : Int)
    (hf : forward = true → base % 6 ≠ 5)
    (hb : forward = false → base % 6 ≠ 1 ∧ (base / 6) % 85085 ≠ 0)
    (hres : iZ_next_prime oracle base forward fuel = some c) :
    oracle c = true ∧ (forward = true → (base : Int) < c) ∧
      (forward = false → c < (base : Int)) := by
  have hvx : (iZm_init 85085).vx = 85085 := rfl
  cases forward with
  | true =>
    have hf' := hf rfl
    simp only [iZ_next_prime, hf', Bool.not_true, Bool.false_eq_true, false_and,
      and_false, if_false, if_true, eq_self_iff_true, true_and] at hres
    refine next_prime_loop_sound true (base : Int) fuel _ _ ?_ ?_ ?_ c hres
    · rw [hvx]
      omega
    · intro _
      push_cast
      omega
    · exact fun h => nomatch h
  | false =>
    obtain ⟨hb1, hb2⟩ := hb rfl
    simp only [iZ_next_prime, hb1, Bool.not_false, Bool.false_eq_true, false_and,
      and_false, if_false, if_true, eq_self_iff_true, true_and] at hres
    refine next_prime_loop_sound false (base : Int) fuel _ _ ?_ ?_ ?_ c hres
    · rw [hvx]
      omega
    · exact fun h => nomatch h
    · intro _
      push_cast
      omega

/-- The exact-primality oracle: `check_primality` treated as an exact
primality test (GMP rejects non-positive inputs). -/
def primeOracle : Int → Bool := fun z => decide (0 ≤ z ∧ Nat.Prime z.toNat)

theorem iZm_init_bits5 (x : Nat) (hx1 : 1 ≤ x) (hxv : x ≤ 85085) :
    ((iZm_init 85085).base_x5.bits x = true ↔ Nat.gcd (6 * x - 1) 85085 = 1) ∧
    ((iZm_init 85085).base_x7.bits x = true ↔ Nat.gcd (6 * x + 1) 85085 = 1) :=
  construct_vx_base_char (by simp [validVx]) ⟨85095, fun _ => true⟩
    ⟨85095, fun _ => true⟩ (by norm_num) (by norm_num) x hx1 hxv

theorem scan_85085_at_2 :
    scan_x primeOracle (iZm_init 85085).base_x5 (iZm_init 85085).base_x7
      true 0 2 = none := by
  have h5 : (iZm_init 85085).base_x5.bits 2 = false := by
    rw [Bool.eq_false_iff]
    intro ht
    exact absurd ((iZm_init_bits5 2 (by norm_num) (by norm_num)).1.mp ht)
      (by decide)
  have h7 : (iZm_init 85085).base_x7.bits 2 = false := by
    rw [Bool.eq_false_iff]
    intro ht
    exact absurd ((iZm_init_bits5 2 (by norm_num) (by norm_num)).2.mp ht)
      (by decide)
  simp [scan_x, h5, h7]

theorem scan_85085_at_3 :
    scan_x primeOracle (iZm_init 85085).base_x5 (iZm_init 85085).base_x7
      true 0 3 = some 19 := by
  have h5 : (iZm_init 85085).base_x5.bits 3 = false := by
    rw [Bool.eq_false_iff]
    intro ht
    exact absurd ((iZm_init_bits5 3 (by norm_num) (by norm_num)).1.mp ht)
      (by decide)
  have h7 : (iZm_init 85085).base_x7.bits 3 = true :=
    (iZm_init_bits5 3 (by norm_num) (by norm_num)).2.mpr (by decide)
  have ho : primeOracle 19 = true := by decide
  simp [scan_x, h5, h7, ho]

/-- With `vx = 85085`, one segment of the forward scan from `start_x = 2`
at `yvx = 0` stops at 19: the bits of 11, 13 and 17 (divisors of `vx`)
are cleared in the base bitmaps, and 19 passes the oracle. -/
theorem next_prime_loop_85085_ex :
    next_prime_loop primeOracle (iZm_init 85085) true 1 0 2 = some 19 := by
  have hfind : (List.range' 2 ((iZm_init 85085).vx + 1 - 2)).findSome?
      (scan_x primeOracle (iZm_init 85085).base_x5 (iZm_init 85085).base_x7
        true 0) = some 19 := by
    rw [show List.range' 2 ((iZm_init 85085).vx + 1 - 2)
        = 2 :: 3 :: List.range' 4 85082 from rfl]
    rw [List.findSome?_cons, scan_85085_at_2]
    show (List.range' 3 85083).findSome? _ = some 19
    rw [show List.range' 3 85083 = 3 :: List.range' 4 85082 from rfl]
    rw [List.findSome?_cons, scan_85085_at_3]
  rw [next_prime_loop, if_pos rfl, hfind]

/-- `iZ_next_prime` forward from base 6 with the exact oracle: one segment
suffices and the result is 19. -/
theorem iZ_next_prime_6_fwd :
    iZ_next_prime primeOracle 6 true 1 = some 19 := by
  unfold iZ_next_prime
  rw [if_neg (by simp), if_neg (by simp)]
  simp only []
  norm_num
  exact next_prime_loop_85085_ex

/-- `iZ_next_prime` forward from base 10 with the exact oracle: one segment
suffices and the result is 19. -/
theorem iZ_next_prime_10_fwd :
    iZ_next_prime primeOracle 10 true 1 = some 19 := by
  unfold iZ_next_prime
  rw [if_neg (by simp), if_neg (by simp)]
  simp only []
  norm_num
  exact next_prime_loop_85085_ex



/-- Truncate to a 32-bit word. -/
def w32 (x : Nat) : Nat := x % 4294967296

/-- 32-bit right rotation. -/
def rotr (n x : Nat) : Nat := w32 ((x >>> n) ||| (x <<< (32 - n)))

def sigma0 (x : Nat) : Nat := rotr 7 x ^^^ rotr 18 x ^^^ (x >>> 3)
def sigma1 (x : Nat) : Nat := rotr 17 x ^^^ rotr 19 x ^^^ (x >>> 10)
def bigSigma0 (x : Nat) : Nat := rotr 2 x ^^^ rotr 13 x ^^^ rotr 22 x
def bigSigma1 (x : Nat) : Nat := rotr 6 x ^^^ rotr 11 x ^^^ rotr 25 x
def chFn (e f g : Nat) : Nat := (e &&& f) ^^^ ((e ^^^ 4294967295) &&& g)
def majFn (a b c : Nat) : Nat := (a &&& b) ^^^ (a &&& c) ^^^ (b &&& c)

def sha_K : List Nat :=
  [1116352408, 1899447441, 3049323471, 3921009573, 961987163, 1508970993,
    2453635748, 2870763221, 3624381080, 310598401, 607225278, 1426881987,
    1925078388, 2162078206, 2614888103, 3248222580, 3835390401, 4022224774,
    264347078, 604807628, 770255983, 1249150122, 1555081692, 1996064986,
    2554220882, 2821834349, 2952996808, 3210313671, 3336571891, 3584528711,
    113926993, 338241895, 666307205, 773529912, 1294757372, 1396182291,
    1695183700, 1986661051, 2177026350, 2456956037, 2730485921, 2820302411,
    3259730800, 3345764771, 3516065817, 3600352804, 4094571909, 275423344,
    430227734, 506948616, 659060556, 883997877, 958139571, 1322822218,
    1537002063, 1747873779, 1955562222, 2024104815, 2227730452, 2361852424,
    2428436474, 2756734187, 3204031479, 3329325298]

def sha_H0 : List Nat :=
  [1779033703, 3144134277, 1013904242, 2773480762, 1359893119, 2600822924,
    528734635, 1541459225]

/-- 8 big-endian bytes. -/
def be64 (n : Nat) : List Nat :=
  [n / 72057594037927936 % 256, n / 281474976710656 % 256,
   n / 1099511627776 % 256, n / 4294967296 % 256,
   n / 16777216 % 256, n / 65536 % 256, n / 256 % 256, n % 256]

/-- 4 big-endian bytes. -/
def be32 (n : Nat) : List Nat :=
  [n / 16777216 % 256, n / 65536 % 256, n / 256 % 256, n % 256]

/-- A 64-byte block as 16 big-endian 32-bit words. -/
def be32words (block : List Nat) : List Nat :=
  (List.range 16).map fun i =>
    block.getD (4 * i) 0 * 16777216 + block.getD (4 * i + 1) 0 * 65536 +
      block.getD (4 * i + 2) 0 * 256 + block.getD (4 * i + 3) 0

/-- Message schedule: extend 16 words to 64. -/
def sha_schedule (w : List Nat) : List Nat :=
  (List.range 48).foldl (fun ws t =>
    ws ++ [w32 (sigma1 (ws.getD (t + 14) 0) + ws.getD (t + 9) 0 +
      sigma0 (ws.getD (t + 1) 0) + ws.getD t 0)]) w

/-- One SHA-256 compression of a 64-byte block into the hash state. -/
def sha_compress (H : List Nat) (block : List Nat) : List Nat :=
  let w := sha_schedule (be32words block)
  let st := (List.range 64).foldl (fun (s : List Nat) t =>
    let a := s.getD 0 0
    let b := s.getD 1 0
    let c := s.getD 2 0
    let d := s.getD 3 0
    let e := s.getD 4 0
    let f := s.getD 5 0
    let g := s.getD 6 0
    let h := s.getD 7 0
    let T1 := w32 (h + bigSigma1 e + chFn e f g + sha_K.getD t 0 + w.getD t 0)
    let T2 := w32 (bigSigma0 a + majFn a b c)
    [w32 (T1 + T2), a, b, c, w32 (d + T1), e, f, g]) H
  (List.range 8).map fun i => w32 (H.getD i 0 + st.getD i 0)

/-- Split into 64-byte chunks (fuel-indexed). -/
def chunks64 : Nat → List Nat → List (List Nat)
  | 0, _ => []
  | fuel + 1, l => if l = [] then [] else l.take 64 :: chunks64 fuel (l.drop 64)

/-- SHA-256 of a byte string (each entry a byte), as 32 bytes. -/
def SHA256 (msg : List Nat) : List Nat :=
  let pad := msg ++ 0x80 :: List.replicate ((64 - (msg.length + 9) % 64) % 64) 0
    ++ be64 (8 * msg.length)
  let Hf := (chunks64 (pad.length + 1) pad).foldl sha_compress sha_H0
  Hf.foldr (fun wrd acc => be32 wrd ++ acc) []

set_option maxRecDepth 40000 in
theorem sha256_zero_byte :
    SHA256 [0] = [110, 52, 11, 156, 255, 179, 122, 152, 156, 165, 68, 230, 187, 120, 10, 44, 120, 144, 29, 63, 179, 55, 56, 118, 133, 17, 163, 6, 23, 175, 160, 29] := by decide

set_option maxRecDepth 40000 in
theorem sha256_abc :
    SHA256 [97, 98, 99] = [186, 120, 22, 191, 143, 1, 207, 234, 65, 65, 64,
      222, 93, 174, 34, 35, 176, 3, 97, 163, 150, 23, 122, 156, 180, 16, 255,
      97, 242, 0, 21, 173] := by decide


/-! ### `bitmap_fwrite` / `bitmap_fread` (bitmap.c lines 440-535) -/

/-- The on-disk image of a `BITMAP`: bit count, packed data bytes and the
stored SHA-256 digest (bitmap.h).  `byte_size = (size + 7) / 8`. -/
structure ByteBitmap where
  size : Nat
  data : List Nat
  sha256 : List Nat
  deriving DecidableEq

/-- `bitmap_compute_hash` (bitmap.c lines 397-404). -/
def bitmap_compute_hash (bm : ByteBitmap) : ByteBitmap :=
  { bm with sha256 := SHA256 bm.data }

/-- 8 little-endian bytes: the raw `fwrite(&bitmap->size, sizeof(size_t),
1, file)` image on the little-endian targets the project builds for. -/
def u64le (n : Nat) : List Nat :=
  [n % 256, n / 256 % 256, n / 65536 % 256, n / 16777216 % 256,
   n / 4294967296 % 256, n / 1099511627776 % 256,
   n / 281474976710656 % 256, n / 72057594037927936 % 256]

def readU64le (l : List Nat) : Nat :=
  l.getD 0 0 + l.getD 1 0 * 256 + l.getD 2 0 * 65536 +
    l.getD 3 0 * 16777216 + l.getD 4 0 * 4294967296 +
    l.getD 5 0 * 1099511627776 + l.getD 6 0 * 281474976710656 +
    l.getD 7 0 * 72057594037927936

/-- `bitmap_fwrite` (bitmap.c lines 440-484): write the size and the data
bytes, compute the digest into the bitmap first when the stored digest is
still all-zero, then write the digest.  Returns the byte stream and the
(possibly hash-updated) bitmap. -/
def bitmap_fwrite (bm : ByteBitmap) : List Nat × ByteBitmap :=
  let bm1 := if bm.sha256.all (· == 0) then bitmap_compute_hash bm else bm
  (u64le bm.size ++ bm1.data ++ bm1.sha256, bm1)

/-- `bitmap_fread` (bitmap.c lines 492-535): read the size, the
`(size + 7) / 8` data bytes and the 32-byte digest (failing when the
stream is short), then reject the bitmap unless the recomputed SHA-256
matches the stored digest (`bitmap_validate_hash`, lines 412-431). -/
def bitmap_fread (stream : List Nat) : Option ByteBitmap :=
  if stream.length < 8 then none
  else
    let size := readU64le (stream.take 8)
    let byte_size := (size + 7) / 8
    let rest := stream.drop 8
    if rest.length < byte_size then none
    else
      let data := rest.take byte_size
      let rest2 := rest.drop byte_size
      if rest2.length < 32 then none
      else
        let digest := rest2.take 32
        if SHA256 data = digest then
          some { size := size, data := data, sha256 := digest }
        else none

theorem u64le_length (n : Nat) : (u64le n).length = 8 := by simp [u64le]

theorem readU64le_u64le {n : Nat} (h : n < 2 ^ 64) :
    readU64le (u64le n) = n := by
  simp only [u64le, readU64le, List.getD]
  simp
  omega

theorem sha_compress_length (H block : List Nat) :
    (sha_compress H block).length = 8 := by
  simp [sha_compress]

theorem sha_state_length (l : List (List Nat)) :
    ∀ H : List Nat, H.length = 8 → (l.foldl sha_compress H).length = 8 := by
  induction l with
  | nil => intro H h; simpa using h
  | cons b t ih =>
    intro H h
    exact ih (sha_compress H b) (sha_compress_length H b)

theorem digest_bytes_length (L : List Nat) :
    (L.foldr (fun wrd acc => be32 wrd ++ acc) []).length = 4 * L.length := by
  induction L with
  | nil => simp
  | cons w t ih =>
    simp only [List.foldr_cons, List.length_append, List.length_cons, ih]
    simp only [be32, List.length_cons, List.length_nil]
    omega

theorem SHA256_length (msg : List Nat) : (SHA256 msg).length = 32 := by
  rw [SHA256]
  rw [digest_bytes_length]
  rw [sha_state_length _ sha_H0 (by decide)]

/-- Reading back a well-formed stream `size ++ data ++ digest` succeeds
exactly when the digest matches. -/
theorem fread_of_stream (size : Nat) (data digest : List Nat)
    (hsize : size < 2 ^ 64) (hdata : data.length = (size + 7) / 8)
    (hdiglen : digest.length = 32) (hvalid : SHA256 data = digest) :
    bitmap_fread (u64le size ++ data ++ digest) =
      some { size := size, data := data, sha256 := digest } := by
  have h8 := u64le_length size
  rw [List.append_assoc, bitmap_fread]
  have htake : (u64le size ++ (data ++ digest)).take 8 = u64le size := by
    rw [← h8, List.take_left]
  have hdrop : (u64le size ++ (data ++ digest)).drop 8 = data ++ digest := by
    rw [← h8, List.drop_left]
  rw [if_neg (by simp [h8])]
  rw [htake, hdrop, readU64le_u64le hsize]
  rw [if_neg (by simp [hdiglen]; omega)]
  have htake2 : (data ++ digest).take ((size + 7) / 8) = data := by
    rw [← hdata, List.take_left]
  have hdrop2 : (data ++ digest).drop ((size + 7) / 8) = digest := by
    rw [← hdata, List.drop_left]
  rw [htake2, hdrop2]
  rw [if_neg (by omega)]
  rw [show digest.take 32 = digest from by rw [← hdiglen, List.take_length]]
  rw [if_pos hvalid]

/-- The round trip for bitmaps whose stored digest is all-zero or already
correct: reading back the written stream succeeds, reproducing the size
and data, with the recomputed digest stored. -/
theorem bitmap_roundtrip (bm : ByteBitmap)
    (hsize : bm.size < 2 ^ 64)
    (hdata : bm.data.length = (bm.size + 7) / 8)
    (hdig : bm.sha256.all (· == 0) = true ∨ bm.sha256 = SHA256 bm.data) :
    bitmap_fread (bitmap_fwrite bm).1 =
      some { size := bm.size, data := bm.data, sha256 := SHA256 bm.data } := by
  have hbm1 : (bitmap_fwrite bm).1
      = u64le bm.size ++ bm.data ++ SHA256 bm.data := by
    rw [bitmap_fwrite]
    by_cases hz : bm.sha256.all (· == 0) = true
    · rw [if_pos hz]
      simp [bitmap_compute_hash]
    · rw [if_neg hz]
      rcases hdig with h | h
      · exact absurd h hz
      · rw [h]
  rw [hbm1]
  exact fread_of_stream bm.size bm.data (SHA256 bm.data) hsize hdata
    (SHA256_length _) rfl

/-! ### Wrapping (`uint64_t`-faithful) models of the stepped clears (C8)

The exact-`Nat` models above agree with the C only while no `uint64_t`
expression can wrap, which holds at every sieve call site (`step` is a root
prime, far below `2^64 - limit`).  C8 quantifies over *every* `step ≥ 1`,
where the wrap is reachable: these variants put `% 2^64` exactly where the
C wraps — `idx += step`, the lane sums `idx + k*step`, the products
`2*step`, `3*step`, `4*step` and the guard `limit >= 3*step`. -/

/-- `bitmap_clear_steps` with wrapping `idx += step` (bitmap.c line 215).
The fuel bounds the iteration count; on the claims' inputs the C loop
terminates within it. -/
def clearLoopW : Nat → (Nat → Bool) → Nat → Nat → Nat → (Nat → Bool)
  | 0, f, _, _, _ => f
  | fuel + 1, f, step, idx, limit =>
    if idx ≤ limit then
      clearLoopW fuel (clearBit f idx) step ((idx + step) % U64) limit
    else f

/-- `bitmap_clear_steps` (bitmap.c lines 210-219) over wrapping `uint64_t`
index arithmetic. -/
def bitmap_clear_steps_w (bm : BITMAP) (step start_idx limit : Nat) : BITMAP :=
  if step = 0 then bm
  else
    { bm with bits := (clearLoopW (min limit (bm.size - 1) + 1) bm.bits step
        start_idx (min limit (bm.size - 1))) }

/-- The 4-wide block loop of `bitmap_clear_steps_simd` over wrapping
`uint64_t` arithmetic: the lane indices are wrapping vector adds
`(idx + k*step) mod 2^64` and the loop guard compares against
`limit - (3*step mod 2^64)` (exact, because the enclosing guard has checked
`limit >= 3*step mod 2^64`). -/
def simdLoopW : Nat → (Nat → Bool) → Nat → Nat → Nat → ((Nat → Bool) × Nat)
  | 0, f, _, idx, _ => (f, idx)
  | fuel + 1, f, step, idx, limit =>
    if idx ≤ limit - (3 * step) % U64 then
      simdLoopW fuel
        (clearBit (clearBit (clearBit (clearBit f idx) ((idx + step) % U64))
          ((idx + 2 * step) % U64)) ((idx + 3 * step) % U64))
        step ((idx + 4 * step) % U64) limit
    else (f, idx)

/-- `bitmap_clear_steps_simd` (bitmap.c lines 233-364, NEON/AVX2 4-wide
paths) over wrapping `uint64_t` arithmetic: the entry guard
`limit >= 3*step && start_idx <= limit - 3*step` computes `3*step`
mod `2^64`, then the block loop runs with wrapping lanes and the scalar
tail finishes from the final wrapped `idx`. -/
def bitmap_clear_steps_simd_w (bm : BITMAP) (step start_idx limit : Nat) :
    BITMAP :=
  if step = 0 then bm
  else if (3 * step) % U64 ≤ min limit (bm.size - 1) ∧
      start_idx ≤ min limit (bm.size - 1) - (3 * step) % U64 then
    { bm with bits := (clearLoopW (min limit (bm.size - 1) + 1)
        (simdLoopW (min limit (bm.size - 1) + 1) bm.bits step start_idx
          (min limit (bm.size - 1))).1 step
        (simdLoopW (min limit (bm.size - 1) + 1) bm.bits step start_idx
          (min limit (bm.size - 1))).2 (min limit (bm.size - 1))) }
  else
    { bm with bits := (clearLoopW (min limit (bm.size - 1) + 1) bm.bits step
        start_idx (min limit (bm.size - 1))) }

theorem clearLoopW_eq_clearLoop (step limit : Nat) (hw : limit + step < U64) :
    ∀ fuel (f : Nat → Bool) (idx : Nat),
      clearLoopW fuel f step idx limit = clearLoop fuel f step idx limit := by
  intro fuel
  induction fuel with
  | zero => intro f idx; rfl
  | succ fuel ih =>
    intro f idx
    simp only [clearLoopW, clearLoop]
    by_cases h : idx ≤ limit
    · rw [if_pos h, if_pos h,
        show (idx + step) % U64 = idx + step from Nat.mod_eq_of_lt (by omega),
        ih]
    · rw [if_neg h, if_neg h]

theorem simdLoopW_eq_simdLoop (step limit : Nat) (h3 : 3 * step ≤ limit)
    (hw : limit + step < U64) :
    ∀ fuel (f : Nat → Bool) (idx : Nat),
      simdLoopW fuel f step idx limit = simdLoop fuel f step idx limit := by
  have hs3 : (3 * step) % U64 = 3 * step := Nat.mod_eq_of_lt (by omega)
  intro fuel
  induction fuel with
  | zero => intro f idx; rfl
  | succ fuel ih =>
    intro f idx
    simp only [simdLoopW, simdLoop, hs3]
    by_cases h : idx ≤ limit - 3 * step
    · rw [if_pos h, if_pos h,
        show (idx + step) % U64 = idx + step from Nat.mod_eq_of_lt (by omega),
        show (idx + 2 * step) % U64 = idx + 2 * step from
          Nat.mod_eq_of_lt (by omega),
        show (idx + 3 * step) % U64 = idx + 3 * step from
          Nat.mod_eq_of_lt (by omega),
        show (idx + 4 * step) % U64 = idx + 4 * step from
          Nat.mod_eq_of_lt (by omega),
        ih]
    · rw [if_neg h, if_neg h]

theorem clear_steps_w_eq (bm : BITMAP) (step s l : Nat)
    (hw : min l (bm.size - 1) + step < U64) :
    bitmap_clear_steps_w bm step s l = bitmap_clear_steps bm step s l := by
  simp only [bitmap_clear_steps_w, bitmap_clear_steps]
  by_cases h0 : step = 0
  · rw [if_pos h0, if_pos h0]
  · rw [if_neg h0, if_neg h0, clearLoopW_eq_clearLoop _ _ hw]

theorem clear_steps_simd_w_eq (bm : BITMAP) (step s l : Nat)
    (hw : min l (bm.size - 1) + 3 * step < U64) :
    bitmap_clear_steps_simd_w bm step s l = bitmap_clear_steps_simd bm step s l := by
  simp only [bitmap_clear_steps_simd_w, bitmap_clear_steps_simd]
  by_cases h0 : step = 0
  · rw [if_pos h0, if_pos h0]
  · have hs3 : (3 * step) % U64 = 3 * step := Nat.mod_eq_of_lt (by omega)
    rw [if_neg h0, if_neg h0, hs3]
    by_cases hg : 3 * step ≤ min l (bm.size - 1) ∧
        s ≤ min l (bm.size - 1) - 3 * step
    · rw [if_pos hg, if_pos hg,
        simdLoopW_eq_simdLoop step _ hg.1 (by omega),
        clearLoopW_eq_clearLoop step _ (by omega)]
    · rw [if_neg hg, if_neg hg, clearLoopW_eq_clearLoop step _ (by omega)]

/-- On the no-wrap domain the wrapping SIMD clear agrees with the wrapping
scalar clear: both coincide with the exact models, which are equivalent. -/
theorem clear_steps_simd_w_equiv (bm : BITMAP) (step s l : Nat) (hs : 1 ≤ step)
    (hw : l + 3 * step < U64) :
    bitmap_clear_steps_simd_w bm step s l = bitmap_clear_steps_w bm step s l := by
  have hm : min l (bm.size - 1) ≤ l := Nat.min_le_left _ _
  rw [clear_steps_simd_w_eq bm step s l (by omega),
    clear_steps_simd_eq bm step s l hs,
    clear_steps_w_eq bm step s l (by omega)]

end IZ

/-- C8 counterexample: over the real wrapping `uint64_t` arithmetic the two
functions are *not* equivalent for every `step ≥ 1`.  At
`step = 6148914691236517206 = ⌈2^64/3⌉`, `start = 0`, `limit = 999` on a
1000-bit bitmap, `3*step` wraps to `2`, so the C SIMD entry guard passes
and the first 4-wide block clears the wrapped lane indices — among them the
in-range bit `2` (the other two lanes land far out of bounds, an
out-of-bounds write in C) — while the scalar loop clears only bit `0` and
stops (`idx += step` jumps past `limit`).  Bit 2 ends cleared by the SIMD
path and set by the scalar path. -/
theorem C8_clear_steps_simd_counterexample :
    1 ≤ 6148914691236517206 ∧
    (IZ.bitmap_clear_steps_simd_w ⟨1000, fun _ => true⟩
      6148914691236517206 0 999).bits 2 = false ∧
    (IZ.bitmap_clear_steps_w ⟨1000, fun _ => true⟩
      6148914691236517206 0 999).bits 2 = true :=
  ⟨by decide, by decide, by decide⟩

/-- C8 (amended): with the wrap modeled faithfully, `bitmap_clear_steps_simd`
is observationally equivalent to `bitmap_clear_steps` on every bitmap, start
index and limit, for every `step ≥ 1` such that `limit + 3*step < 2^64` —
i.e. whenever no `uint64_t` expression of either function can wrap.  Every
sieve call site satisfies the bound (`step` is a root prime, `limit ≤ vx`);
the counterexample shows the bound cannot be dropped. -/
theorem C8_clear_steps_simd_amended (bm : IZ.BITMAP) (step s l : Nat)
    (hs : 1 ≤ step) (hw : l + 3 * step < 2 ^ 64) :
    IZ.bitmap_clear_steps_simd_w bm step s l = IZ.bitmap_clear_steps_w bm step s l :=
  IZ.clear_steps_simd_w_equiv bm step s l hs hw

/-- C8 witness: the amended theorem applied on a 64-bit bitmap with
`step = 5`, `start = 3`, `limit = 60`. -/
theorem C8_clear_steps_simd_amended_witness :
    (1 ≤ 5 ∧ 60 + 3 * 5 < 2 ^ 64) ∧
      IZ.bitmap_clear_steps_simd_w ⟨64, fun _ => true⟩ 5 3 60 =
        IZ.bitmap_clear_steps_w ⟨64, fun _ => true⟩ 5 3 60 :=
  ⟨⟨by decide, by decide⟩,
    C8_clear_steps_simd_amended ⟨64, fun _ => true⟩ 5 3 60 (by decide) (by decide)⟩

/-- Helper fact: `35 = 5 * 7` is a product of primes from `[5, 29]`. -/
theorem smallPrimeProduct_35 : IZ.isSmallPrimeProduct 35 :=
  ⟨{5, 7}, by decide, by decide⟩

/-- C3, counterexample: the claim fails as stated.
(1) For `p = 37 ≥ vx = 35`, `m_id = +1`, `y = 1` (all inside the claimed
domain) the returned `x = 29` does not even satisfy the congruence:
`iZ(1·35 + 29, +1) = 385` is not divisible by 37.
(2) At `y = 0` (claimed domain includes `y = 0`) with `p = 5`, `m_id = -1`
the solver returns `x = 6` although `x' = 1 < 6` already satisfies
`iZ(0·35 + 1, -1) = 5 ≡ 0 (mod 5)`: the returned value is not minimal.
(3) With `p = 11`, `y = 1`, `m_id = -1` the solver returns `x = 11`
although `x' = 0 ∈ [0, vx]` satisfies `iZ(1·35 + 0, -1) = 209 = 11·19`. -/
theorem C3_solve_x0_counterexample :
    (Nat.Prime 37 ∧ IZ.isSmallPrimeProduct 35 ∧ (1 : Nat) ≤ 10 ^ 9 ∧
      IZ.iZm_solve_for_x0 1 37 35 1 = 29 ∧
      IZ.iZ (1 * 35 + 29) 1 % (37 : Int) ≠ 0) ∧
    (Nat.Prime 5 ∧ IZ.iZm_solve_for_x0 (-1) 5 35 0 = 6 ∧
      IZ.iZ (0 * 35 + 1) (-1) % (5 : Int) = 0) ∧
    (Nat.Prime 11 ∧ IZ.iZm_solve_for_x0 (-1) 11 35 1 = 11 ∧
      IZ.iZ (1 * 35 + 0) (-1) % (11 : Int) = 0) :=
  ⟨⟨by decide, smallPrimeProduct_35, by decide, by decide, by decide⟩,
    ⟨by decide, by decide, by decide⟩,
    ⟨by decide, by decide, by decide⟩⟩

/-- C3 (amended): for every prime `p > 3` with `p < vx`, every `vx` that is a
product of primes in `[5, 29]`, every `y ∈ [1, 10^9]` and both
`m_id ∈ {-1, +1}`: `x = iZm_solve_for_x0(m_id, p, vx, y)` lies in `[1, p]`,
satisfies `iZ(y·vx + x, m_id) ≡ 0 (mod p)`, and no `x'` with `1 ≤ x' < x`
satisfies that congruence (so `x` is the smallest solution in `[1, vx]`).
Compared with the claim: the case `p ≥ vx` is dropped (the solver then
returns the reflected residue, see the counterexample), the case `y = 0` is
dropped (the solver then targets the first composite, not the first
solution), and the candidate `x' = 0` is excluded (when the residue is `0`
the solver returns `p`, not `0`). -/
theorem C3_solve_x0_amended (p vx y : Nat) (m : Int) (hp : Nat.Prime p)
    (h3 : 3 < p) (hvx : IZ.isSmallPrimeProduct vx) (hpv : p < vx)
    (hy1 : 1 ≤ y) (hyb : y ≤ 10 ^ 9) (hm : m = -1 ∨ m = 1) :
    1 ≤ IZ.iZm_solve_for_x0 m p vx y ∧ IZ.iZm_solve_for_x0 m p vx y ≤ p ∧
    IZ.iZ (y * vx + IZ.iZm_solve_for_x0 m p vx y) m % (p : Int) = 0 ∧
    ∀ x' : Nat, 1 ≤ x' → x' < IZ.iZm_solve_for_x0 m p vx y →
      IZ.iZ (y * vx + x') m % (p : Int) ≠ 0 :=
  IZ.solve_x0_correct p vx y m hp h3 hvx hpv hy1 hyb hm

/-- C3 witness: the amended theorem applied at `p = 5`, `vx = 35`, `y = 1`,
`m_id = -1`. -/
theorem C3_solve_x0_amended_witness :
    Nat.Prime 5 ∧ 3 < 5 ∧ IZ.isSmallPrimeProduct 35 ∧ 5 < 35 ∧
      (1 : Nat) ≤ 10 ^ 9 ∧
      IZ.iZ (1 * 35 + IZ.iZm_solve_for_x0 (-1) 5 35 1) (-1) % (5 : Int) = 0 :=
  ⟨by decide, by decide, smallPrimeProduct_35, by decide, by decide,
    (C3_solve_x0_amended 5 35 1 (-1) (by decide) (by decide)
        smallPrimeProduct_35 (by decide) (by decide) (by decide)
        (Or.inl rfl)).2.2.1⟩

/-- C7, counterexample: `SiZ_count` passes `input_range->mr_rounds` to
`vx_init` with no clamp, so a request of 100 rounds yields a `VX_SEG` with
`mr_rounds = 100 ∉ [5, 50]`. -/
theorem C7_mr_rounds_counterexample :
    IZ.SiZ_count_seg_rounds 100 = 100 ∧ ¬ IZ.SiZ_count_seg_rounds 100 ≤ 50 := by
  decide

/-- C7 (amended): in range mode `SiZ_stream` does clamp the Miller-Rabin
rounds into `[5, 50]` before constructing segments, so every `VX_SEG` it
builds has `mr_rounds ∈ [5, 50]`; `SiZ_count` however passes the requested
value through unclamped: `vx_init` substitutes the default 25 only for a
requested value of 0 and otherwise keeps the value as given. -/
theorem C7_mr_rounds_amended :
    (∀ r : Int, 5 ≤ IZ.SiZ_stream_seg_rounds r ∧ IZ.SiZ_stream_seg_rounds r ≤ 50) ∧
    IZ.SiZ_count_seg_rounds 0 = 25 ∧
    ∀ r : Int, r ≠ 0 → IZ.SiZ_count_seg_rounds r = r := by
  refine ⟨?_, by decide, ?_⟩
  · intro r
    have h1 : (5 : Int) ≤ min (max r 5) 50 :=
      le_min (le_max_right r 5) (by norm_num)
    have h2 : min (max r 5) 50 ≤ 50 := min_le_right _ _
    simp only [IZ.SiZ_stream_seg_rounds, IZ.vx_init_mr_rounds]
    rw [if_neg (by omega)]
    exact ⟨h1, h2⟩
  · intro r hr
    simp only [IZ.SiZ_count_seg_rounds, IZ.vx_init_mr_rounds, if_neg hr]

/-- C7 witness: the amended theorem applied at `r = 7`. -/
theorem C7_mr_rounds_amended_witness :
    (5 ≤ IZ.SiZ_stream_seg_rounds 7 ∧ IZ.SiZ_stream_seg_rounds 7 ≤ 50) ∧
    (7 : Int) ≠ 0 ∧ IZ.SiZ_count_seg_rounds 7 = 7 :=
  ⟨C7_mr_rounds_amended.1 7, by decide, C7_mr_rounds_amended.2.2 7 (by decide)⟩

/-- C4, counterexample: the claim fails as stated.
(1) For the prime `p = 77309411329 = 9·2^33 + 1` (coprime to `vx = 35`),
`m_id = -1`, `x = 1`: the `uint64_t` product `delta * vx_inv`
(`64424509440 · 35341445179 ≥ 2^64`) wraps, the function returns
`y = 38552444538`, and `iZ(1 + 35·y, -1)` is not divisible by `p`
(the correct solution would be `y = 30110096053`).
(2) The claim also fails for the prime `p = 2` (no overflow involved):
with `x = 2`, `m_id = -1` the function returns `y = 0`, but
`iZ(2, -1) = 11` is odd. -/
theorem C4_solve_y0_counterexample :
    (Nat.Prime 77309411329 ∧ Nat.gcd 35 77309411329 = 1 ∧
      IZ.iZm_solve_for_y0 (-1) 77309411329 35 1 = 38552444538 ∧
      IZ.iZ (1 + 35 * 38552444538) (-1) % (77309411329 : Int) ≠ 0) ∧
    (Nat.Prime 2 ∧ Nat.gcd 35 2 = 1 ∧
      IZ.iZm_solve_for_y0 (-1) 2 35 2 = 0 ∧
      IZ.iZ (2 + 35 * 0) (-1) % (2 : Int) ≠ 0) :=
  ⟨⟨IZ.prime_77309411329, by decide, by decide, by decide⟩,
    ⟨by decide, by decide, by decide, by decide⟩⟩

/-- C4 (amended): (a) whenever `gcd(vx, p) ≠ 1` the vertical solver returns
the sentinel `-1`; (b) for every prime `p` with `3 < p < 2^32` and
`gcd(vx, p) = 1`, both `m_id ∈ {-1, +1}` and every `x`, the returned
`y = iZm_solve_for_y0(m_id, p, vx, x)` satisfies `0 ≤ y < p` and
`iZ(x + vx·y, m_id) ≡ 0 (mod p)`.  Compared with the claim: primes `p ≤ 3`
are excluded (the solver's residue formula is specific to `p = 6k ± 1`) and
`p < 2^32` is required so that the `uint64_t` product `delta * vx_inv`
cannot wrap (see the counterexample); the restrictions `x ∈ [1, vx]` and
`gcd(iZ(x, m_id), vx) = 1` of the claim are not needed. -/
theorem C4_solve_y0_amended :
    (∀ (m : Int) (p vx x : Nat), Nat.gcd vx p ≠ 1 →
      IZ.iZm_solve_for_y0 m p vx x = -1) ∧
    (∀ (p vx x : Nat) (m : Int), Nat.Prime p → 3 < p → p < 2 ^ 32 →
      Nat.gcd vx p = 1 → (m = -1 ∨ m = 1) →
      0 ≤ IZ.iZm_solve_for_y0 m p vx x ∧ IZ.iZm_solve_for_y0 m p vx x < p ∧
      IZ.iZ (x + vx * (IZ.iZm_solve_for_y0 m p vx x).toNat) m % (p : Int) = 0) :=
  ⟨fun m p vx x hg => IZ.solve_y0_sentinel m p vx x hg,
    fun p vx x m hp h3 hpb hg hm => IZ.solve_y0_correct p vx x m hp h3 hpb hg hm⟩

/-- C4 witness: the amended theorem applied at `p = 11`, `vx = 35`,
`x = 4`, `m_id = 1`, and the sentinel part at `p = 5`, `vx = 35`. -/
theorem C4_solve_y0_amended_witness :
    (Nat.gcd 35 5 ≠ 1 ∧ IZ.iZm_solve_for_y0 1 5 35 4 = -1) ∧
    (Nat.Prime 11 ∧ Nat.gcd 35 11 = 1 ∧
      IZ.iZ (4 + 35 * (IZ.iZm_solve_for_y0 1 11 35 4).toNat) 1 % (11 : Int) = 0) :=
  ⟨⟨by decide, C4_solve_y0_amended.1 1 5 35 4 (by decide)⟩,
    ⟨by decide, by decide,
      (C4_solve_y0_amended.2 11 35 4 1 (by decide) (by decide) (by decide)
        (by decide) (Or.inr rfl)).2.2⟩⟩

/-- C5 counterexample: the claim quantifies over every index `x ∈ [0, vx]`,
but `iZm_construct_vx_base` explicitly clears bit 0 of both bitmaps
(iZ_toolkit.c lines 370-371) even though `gcd(6·0+1, vx) = gcd(1, 35) = 1`,
so the bit at `x = 0` in `base_x7` is cleared while the claimed
characterization says it should be set. -/
theorem C5_construct_vx_base_counterexample :
    Nat.gcd (6 * 0 + 1) 35 = 1 ∧
    (IZ.iZm_construct_vx_base 35 ⟨36, fun _ => false⟩
      ⟨36, fun _ => false⟩).2.bits 0 = false :=
  ⟨by decide, by decide⟩

/-- C5 (amended): after `iZm_construct_vx_base(vx, base_x5, base_x7)` for a
valid `vx` (a product of consecutive small primes starting at 5) on bitmaps
of size at least `vx + 1`, for every index `x` in `[1, vx]` the bit at `x`
in `base_x5` is set iff `gcd(6x-1, vx) = 1` and the bit at `x` in `base_x7`
is set iff `gcd(6x+1, vx) = 1`.  Compared with the claim, only `x = 0` is
excluded: the code clears bit 0 unconditionally. -/
theorem C5_construct_vx_base_amended (vx : Nat) (hvx : IZ.validVx vx)
    (b5 b7 : IZ.BITMAP) (h5sz : vx + 1 ≤ b5.size) (h7sz : vx + 1 ≤ b7.size)
    (x : Nat) (hx1 : 1 ≤ x) (hxv : x ≤ vx) :
    ((IZ.iZm_construct_vx_base vx b5 b7).1.bits x = true ↔
      Nat.gcd (6 * x - 1) vx = 1) ∧
    ((IZ.iZm_construct_vx_base vx b5 b7).2.bits x = true ↔
      Nat.gcd (6 * x + 1) vx = 1) :=
  IZ.construct_vx_base_char hvx b5 b7 h5sz h7sz x hx1 hxv

/-- C5 witness: the amended theorem applied at `vx = 35` on size-36 bitmaps
at the index `x = 2` (where `gcd(11, 35) = gcd(13, 35) = 1`). -/
theorem C5_construct_vx_base_amended_witness :
    IZ.validVx 35 ∧
    (((IZ.iZm_construct_vx_base 35 ⟨36, fun _ => false⟩
        ⟨36, fun _ => false⟩).1.bits 2 = true ↔ Nat.gcd (6 * 2 - 1) 35 = 1) ∧
     ((IZ.iZm_construct_vx_base 35 ⟨36, fun _ => false⟩
        ⟨36, fun _ => false⟩).2.bits 2 = true ↔ Nat.gcd (6 * 2 + 1) 35 = 1)) :=
  ⟨by simp [IZ.validVx],
    C5_construct_vx_base_amended 35 (by simp [IZ.validVx]) ⟨36, fun _ => false⟩
      ⟨36, fun _ => false⟩ (by decide) (by decide) 2 (by decide) (by decide)⟩

/-- C2: `SiZ` does not return every prime `≤ n`.  The loop of
`process_iZ_bitmaps` runs `x < x_limit` with `x_limit = n/6 + 1`, so a
prime `n` with `n % 6 = 5` (which sits at `x = n/6 + 1 = x_limit` on the
`6x-1` line) is never visited: `SiZ(17) = [2, 3, 5, 7, 11, 13]` misses the
prime 17. -/
theorem C2_SiZ_missing_prime :
    IZ.SiZ 17 = [2, 3, 5, 7, 11, 13] ∧ Nat.Prime 17 ∧ 17 ∉ IZ.SiZ 17 := by
  decide

/-- C1: on its single-worker path `SiZ_count` does not count every prime of
`[Zs, Ze]`.  For `start = 0`, `range = 102` (so `Zs = 0`, `Ze = 101`,
`range > 100` legal) the first solid segment only reaches
`6·(Xe % vx) + 1 = 97` because `Xe = Ze/6 = 16` ignores that
`Ze ≡ 5 (mod 6)` places the prime `101 = 6·17 - 1` at `x = 17`: the
function returns 25 for every oracle and every `vx` the L2 probe can pick
(here the 2 MiB fallback value `1616615`), while `[0, 101]` holds 26
primes. -/
theorem C1_SiZ_count_miscount (oracle : Int → Bool) :
    IZ.SiZ_count oracle 1616615 0 102 25 = 25 ∧
    ((List.range 102).filter (fun z => decide (Nat.Prime z))).length = 26 :=
  ⟨rfl, by decide⟩

/-- C10: `vx_full_sieve` with `collect_p_gaps = 0` is idempotent: after one
call `is_large_limit` is clear (either `vx_prob_sieve` ran and cleared it,
or it was already clear), so a second call takes the no-op branch and
leaves the whole segment — in particular `p_count`, `x5` and `x7` —
unchanged. -/
theorem C10_vx_full_sieve_idempotent (oracle : Int → Bool) (st : IZ.VX_SEG) :
    (IZ.vx_full_sieve oracle st).is_large_limit = false ∧
    IZ.vx_full_sieve oracle (IZ.vx_full_sieve oracle st) =
      IZ.vx_full_sieve oracle st := by
  refine ⟨?_, ?_⟩ <;>
    by_cases h : st.is_large_limit <;>
      simp [IZ.vx_full_sieve, IZ.vx_prob_sieve, h]

/-- C6 counterexample: `iZ_next_prime` does not return the nearest prime.
Forward from base 6 (with the exact-primality oracle) it returns 19, although
7 is prime and 6 < 7 < 19: the scan starts at `x = base/6 % vx + 1 = 2`
(skipping `x = 1`) and the base bitmaps of `vx = 85085 = 5·7·11·13·17` have
the bits of the primes dividing `vx` permanently cleared, so 7, 11, 13 and
17 can never be found. -/
theorem C6_next_prime_counterexample :
    IZ.iZ_next_prime IZ.primeOracle 6 true 1 = some 19 ∧
      Nat.Prime 7 ∧ (6 : Int) < 7 ∧ (7 : Int) < 19 :=
  ⟨IZ.iZ_next_prime_6_fwd, by decide, by decide, by decide⟩

/-- C6 (amended): away from the broken boundary residues — forward from a
base with `base % 6 ≠ 5`, backward from a base with `base % 6 ≠ 1` whose
index `base/6` is not a multiple of `vx = 85085` — any value
`iZ_next_prime` returns is approved by the primality oracle and lies
strictly beyond the base in the requested direction.  Compared with the
claim, the returned value need not be the *nearest* such prime (see the
counterexample: primes dividing `vx` are unreachable and the scan skips
the first index), so only direction and probable primality survive. -/
theorem C6_next_prime_amended (oracle : Int → Bool) (base : Nat)
    (forward : Bool) (fuel : Nat) (c : Int)
    (hf : forward = true → base % 6 ≠ 5)
    (hb : forward = false → base % 6 ≠ 1 ∧ (base / 6) % 85085 ≠ 0)
    (hres : IZ.iZ_next_prime oracle base forward fuel = some c) :
    oracle c = true ∧ (forward = true → (base : Int) < c) ∧
      (forward = false → c < (base : Int)) :=
  IZ.next_prime_sound oracle base forward fuel c hf hb hres

/-- C6 witness: the amended theorem applied forward from base 10 with the
exact-primality oracle and one segment of fuel, where the function returns
19: the oracle approves 19 and `10 < 19`. -/
theorem C6_next_prime_amended_witness :
    IZ.primeOracle (19 : Int) = true ∧ (10 : Int) < 19 := by
  have h := C6_next_prime_amended IZ.primeOracle
    10 true 1 19 (fun _ => by decide) (fun hh => nomatch hh)
    IZ.iZ_next_prime_10_fwd
  exact ⟨h.1, h.2.1 rfl⟩

set_option maxRecDepth 40000 in
/-- C9 counterexample: the round trip can fail.  `bitmap_fwrite` writes a
nonzero stored digest as-is without checking it, so for a bitmap carrying
a stale digest (here `01 00 ... 00` over the one data byte `0x00`, whose
true SHA-256 starts `6e 34 ...`) `bitmap_fread` recomputes the hash, the
`memcmp` validation fails, and the read returns no bitmap at all. -/
theorem C9_bitmap_roundtrip_counterexample :
    IZ.bitmap_fread (IZ.bitmap_fwrite
      ⟨8, [0], 1 :: List.replicate 31 0⟩).1 = none := by decide

/-- C9 (amended): for every bitmap whose stored digest is all-zero (fresh)
or equal to the SHA-256 of its data, writing with `bitmap_fwrite` and
reading the stream back with `bitmap_fread` succeeds and yields the same
bit count, byte-equal data, and the recomputed digest `SHA256(data)` (the
digest `bitmap_fwrite` itself stores into the bitmap when it was zero).
Compared with the claim, bitmaps with a stale nonzero digest are excluded:
for them the read fails outright (see the counterexample). -/
theorem C9_bitmap_roundtrip_amended (bm : IZ.ByteBitmap)
    (hsize : bm.size < 2 ^ 64)
    (hdata : bm.data.length = (bm.size + 7) / 8)
    (hdig : bm.sha256.all (· == 0) = true ∨ bm.sha256 = IZ.SHA256 bm.data) :
    IZ.bitmap_fread (IZ.bitmap_fwrite bm).1 =
      some { size := bm.size, data := bm.data, sha256 := IZ.SHA256 bm.data } :=
  IZ.bitmap_roundtrip bm hsize hdata hdig

/-- C9 witness: the amended theorem applied to the fresh one-byte bitmap
of 8 bits with an all-zero stored digest. -/
theorem C9_bitmap_roundtrip_amended_witness :
    IZ.bitmap_fread (IZ.bitmap_fwrite
        ⟨8, [0], List.replicate 32 0⟩).1 =
      some { size := 8, data := [0], sha256 := IZ.SHA256 [0] } :=
  C9_bitmap_roundtrip_amended ⟨8, [0], List.replicate 32 0⟩ (by norm_num)
    (by norm_num) (Or.inl (by decide))
